import Mathlib

/-!
# DDPMeans: dependent (time-evolving) DP-means clustering

A shallow embedding of `include/ddpmeans.hpp`.

* The scalar type `T` of the template is modelled by the rationals, so that
  every arithmetic identity is exact.
* An Eigen matrix is a row count together with the list of its columns; a
  column is a list of scalars.
* Every indexed read or write that would leave the bounds of a vector, a
  matrix or a `std::vector` makes the enclosing operation return `none`.
* The per-cluster counter vector `Ns_`, the label vector `z_`, the batch
  `spx_`, the centroid matrix `ps_`, `K_`, `D_`, `N_`, `cost_`, `prevCost_`
  and `lambda_` are members of the base classes, which are declared in
  `dpmeans.hpp`; they appear here as fields of the state.  Counters are
  mathematical integers, `K_`, `N_` and labels are natural numbers.
* The metric `DS` (`dist`, `closer`, `computeCenter`) is a parameter.
* The `assert` of `nextTimeStep` is taken to be active, the iterations of the
  `omp parallel for` loop of `updateCenters` run in index order, and the
  console output of `updateState` is left out.
-/

namespace DDPMeans

/-! ## Data model -/

/-- A column vector of scalars. -/
abbrev Vec := List ℚ

/-- Scalar multiple `v * a` of a vector. -/
def Vec.smul (v : Vec) (a : ℚ) : Vec := v.map (fun c => c * a)

/-- Quotient `v / a` of a vector by a scalar. -/
def Vec.sdiv (v : Vec) (a : ℚ) : Vec := v.map (fun c => c / a)

/-- Coefficient-wise sum `u + v` of two vectors. -/
def Vec.add (u v : Vec) : Vec := List.zipWith (fun a b => a + b) u v

/-- A dense matrix: its number of rows and the list of its columns. -/
structure Mat where
  rows : Nat
  cols : List Vec
deriving DecidableEq

/-- The reserved label of a point that has no cluster (`#define UNASSIGNED`). -/
def UNASSIGNED : Nat := 4294967295

/-- The metric capability `DS` the class template is instantiated with. -/
structure Metric where
  dist : Vec → Vec → ℚ
  closer : ℚ → ℚ → Bool
  computeCenter : Mat → List Nat → Nat → Vec × Int

/-- The members of a `DDPMeans` object (its own and the inherited ones). -/
structure State where
  K_ : Nat
  D_ : Nat
  N_ : Nat
  cost_ : ℚ
  prevCost_ : ℚ
  spx_ : Mat
  ps_ : Mat
  Ns_ : List Int
  z_ : List Nat
  lambda_ : ℚ
  ts_ : List ℚ
  ws_ : List ℚ
  Q_ : ℚ
  tau_ : ℚ
  Kprev_ : ℚ
  psPrev_ : Mat
deriving DecidableEq

/-- Indexed write `v(k) = a`, undefined outside the bounds. -/
def setAt {α : Type} (v : List α) (k : Nat) (a : α) : Option (List α) :=
  if k < v.length then some (v.set k a) else none

/-- Eigen `conservativeResize(n)`: the first `n` entries are kept; entries past
the old size are uninitialised in the source and are written as `0` here (the
only caller overwrites the single new entry at once). -/
def conservativeResize (v : List Int) (n : Nat) : List Int :=
  v.take n ++ List.replicate (n - v.length) 0

/-- A counted `for` loop `for (k = start; k < start + n; ++k) body`, threading
the state and stopping at the first undefined step. -/
def forLoop {σ : Type} (body : σ → Nat → Option σ) : Nat → Nat → σ → Option σ
  | 0, _, s => some s
  | n + 1, k, s => (body s k).bind (forLoop body n (k + 1))

/-! ## Assignment Step -/

/-- The fusion coefficient `gamma = 1.0/(1.0/ws_[k] + ts_[k]*tau_)`. -/
def gammaOf (w t tau : ℚ) : ℚ := 1 / (1 / w + t * tau)

/-- The single-point fusion `(c*gamma + x)/(gamma+1.)` of `updateLabels`. -/
def fusePoint (gamma : ℚ) (c x : Vec) : Vec :=
  ((c.smul gamma).add x).sdiv (gamma + 1)

/-- The effective distance of a dormant cluster,
`sim_k/(tau_*ts_[k]+1.+ 1.0/ws_[k]) + Q_*ts_[k]`. -/
def dormantSim (d tau t w Q : ℚ) : ℚ := d / (tau * t + 1 + 1 / w) + Q * t

/-- One iteration of the loop of `indOfClosestCluster`: the pair is
`(z_i, sim_closest)`. -/
def closestBody (M : Metric) (s : State) (i : Nat) (acc : Nat × ℚ) (k : Nat) :
    Option (Nat × ℚ) :=
  (s.ps_.cols[k]?).bind fun c =>
  (s.spx_.cols[i]?).bind fun x =>
  (s.Ns_[k]?).bind fun n =>
  (if n = 0 then
      (s.ts_[k]?).bind fun t =>
      (s.ws_[k]?).bind fun w =>
      some (dormantSim (M.dist c x) s.tau_ t w s.Q_)
    else some (M.dist c x)).bind fun sim_k =>
  if M.closer sim_k acc.2 then some (k, sim_k) else some acc

/-- The method `indOfClosestCluster(i, sim_closest)`: returns `(z_i, sim_closest)`. -/
def indOfClosestCluster (M : Metric) (s : State) (i : Nat) : Option (Nat × ℚ) :=
  forLoop (closestBody M s i) s.K_ 0 (s.K_, s.lambda_)

/-- The branch "start a new cluster" of `updateLabels`. -/
def spawnCluster (s : State) (i z_i : Nat) : Option State :=
  (s.spx_.cols[i]?).bind fun x =>
  if s.ps_.cols.length = s.K_ then
    (setAt (conservativeResize s.Ns_ (s.K_ + 1)) z_i 1).bind fun Ns =>
    some { s with ps_ := ⟨s.D_, s.ps_.cols ++ [x]⟩, K_ := s.K_ + 1, Ns_ := Ns }
  else none

/-- The branch of `updateLabels` that joins an existing cluster, fusing its
centroid with the point first when the cluster is not instantiated yet. -/
def joinCluster (s : State) (i z_i : Nat) : Option State :=
  (s.Ns_[z_i]?).bind fun n =>
  (if n = 0 then
      (s.ws_[z_i]?).bind fun w =>
      (s.ts_[z_i]?).bind fun t =>
      (s.ps_.cols[z_i]?).bind fun c =>
      (s.spx_.cols[i]?).bind fun x =>
      some { s with ps_ := { s.ps_ with
        cols := s.ps_.cols.set z_i (fusePoint (gammaOf w t s.tau_) c x) } }
    else some s).bind fun s1 =>
  (s1.Ns_[z_i]?).bind fun m =>
  some { s1 with Ns_ := s1.Ns_.set z_i (m + 1) }

/-- The tail of the loop body of `updateLabels`: release the previous label of
point `i` and store the new one. -/
def relabel (s : State) (i z_i : Nat) : Option State :=
  (s.z_[i]?).bind fun zOld =>
  (if zOld ≠ UNASSIGNED then
      (s.Ns_[zOld]?).bind fun m =>
      some { s with Ns_ := s.Ns_.set zOld (m - 1) }
    else some s).bind fun s1 =>
  some { s1 with z_ := s1.z_.set i z_i }

/-- The loop body of `updateLabels` for point `i`. -/
def labelPoint (M : Metric) (s : State) (i : Nat) : Option State :=
  (indOfClosestCluster M s i).bind fun r =>
  let s0 := { s with cost_ := s.cost_ + r.2 }
  (if r.1 = s0.K_ then spawnCluster s0 i r.1 else joinCluster s0 i r.1).bind fun s1 =>
  relabel s1 i r.1

/-- The method `updateLabels()`. -/
def updateLabels (M : Metric) (s : State) : Option State :=
  forLoop (labelPoint M) s.N_ 0 { s with prevCost_ := s.cost_, cost_ := 0 }

/-! ## Update Step -/

/-- The batch fusion `(c*gamma + mean*n)/(gamma + n)` of `updateCenters`. -/
def fuseMean (gamma : ℚ) (c mean : Vec) (n : ℚ) : Vec :=
  ((c.smul gamma).add (mean.smul n)).sdiv (gamma + n)

/-- One iteration of the loop of `updateCenters`; `computeCenter` stores the
member count of cluster `k` through the pointer `&Ns_(k)`. -/
def centerBody (M : Metric) (s : State) (k : Nat) : Option State :=
  let r := M.computeCenter s.spx_ s.z_ k
  (setAt s.Ns_ k r.2).bind fun Ns =>
  let s1 := { s with Ns_ := Ns }
  if 0 < r.2 then
    if (k : ℚ) < s1.Kprev_ then
      (s1.ws_[k]?).bind fun w =>
      (s1.ts_[k]?).bind fun t =>
      (s1.ps_.cols[k]?).bind fun c =>
      some { s1 with ps_ := { s1.ps_ with
        cols := s1.ps_.cols.set k (fuseMean (gammaOf w t s1.tau_) c r.1 r.2) } }
    else
      (setAt s1.ps_.cols k r.1).bind fun cs =>
      some { s1 with ps_ := { s1.ps_ with cols := cs } }
  else some s1

/-- The method `updateCenters()`. -/
def updateCenters (M : Metric) (s : State) : Option State :=
  forLoop (centerBody M) s.K_ 0 s

/-! ## Time advance -/

/-- The result of `nextTimeStep`: the state after the call, or the state in
which the failed `assert` stopped the program. -/
inductive Outcome where
  | done : State → Outcome
  | aborted : State → Outcome
deriving DecidableEq

/-- The method `nextTimeStep(spx)`. -/
def nextTimeStep (s : State) (spx : Mat) : Outcome :=
  if s.D_ = spx.rows then
    let s1 := { s with spx_ := spx }
    let s2 := { s1 with N_ := spx.cols.length }
    Outcome.done { s2 with z_ := List.replicate s2.N_ 0 }
  else Outcome.aborted s

/-- One iteration of the loop of `updateState`. -/
def stateBody (s : State) (k : Nat) : Option State :=
  (s.Ns_[k]?).bind fun n =>
  (if k < s.ws_.length ∧ 0 < n then
      (s.ws_[k]?).bind fun w =>
      (s.ts_[k]?).bind fun t =>
      (setAt s.ws_ k (1 / (1 / w + t * s.tau_) + n)).bind fun ws =>
      (setAt s.ts_ k 0).bind fun ts =>
      some { s with ws_ := ws, ts_ := ts }
    else if s.ws_.length ≤ k then
      some { s with ts_ := s.ts_ ++ [0], ws_ := s.ws_ ++ [(n : ℚ)] }
    else some s).bind fun s1 =>
  (s1.ts_[k]?).bind fun t =>
  some { s1 with ts_ := s1.ts_.set k (t + 1) }

/-- The method `updateState()`. -/
def updateState (s : State) : Option State :=
  (forLoop stateBody s.K_ 0 s).bind fun s1 =>
  let s2 := { s1 with psPrev_ := s1.ps_ }
  some { s2 with Kprev_ := (s2.K_ : ℚ) }

/-! ## Driver sequences -/

/-- One Assignment/Update pass followed by the commit, as the driver runs them. -/
def passAndCommit (M : Metric) (s : State) : Option State :=
  (updateLabels M s).bind fun a => (updateCenters M a).bind updateState

/-- The data swap followed by the first Assignment Step on the new batch, as
the driver runs them. -/
def firstPassAfter (M : Metric) (s : State) (spx : Mat) : Option State :=
  match nextTimeStep s spx with
  | Outcome.done t => updateLabels M t
  | Outcome.aborted _ => none

/-! ## Parts that are not in the sources -/

/-- Modelled from the spec: the squared-Euclidean distance of the
distance-minimizing metric (`euclideanData.hpp` is not part of the sources). -/
def sqDist (c x : Vec) : ℚ := (List.zipWith (fun a b => (a - b) * (a - b)) c x).sum

/-- Modelled from the spec: the columns of the batch whose label is `k`
(used by `computeCenter`, which is not part of the sources). -/
def members (x : Mat) (z : List Nat) (k : Nat) : List Vec :=
  ((x.cols.zip z).filter fun p => p.2 = k).map Prod.fst

/-- Modelled from the spec: `computeCenter` of the distance-minimizing metric,
the arithmetic mean of the points labelled `k` and their number. -/
def meanCenter (x : Mat) (z : List Nat) (k : Nat) : Vec × Int :=
  let ms := members x z k
  let total := ms.foldl Vec.add (List.replicate x.rows 0)
  (if ms.length = 0 then total else total.sdiv (ms.length : ℚ), (ms.length : Int))

/-- Modelled from the spec: the squared-Euclidean, distance-minimizing metric
(`closer(a,b)` iff `a < b`), whose header is not part of the sources. -/
def Euclidean : Metric where
  dist := sqDist
  closer := fun a b => decide (a < b)
  computeCenter := meanCenter

/-- Modelled from the spec: the object right after construction.  The
constructor of `DDPMeans` passes `K = 0` to the base class (absent), keeps `Q`
and `tau`, sets `Kprev_ = 0` and copies the empty centroid matrix; every point
starts unassigned and the cost accumulators start at `cost0`. -/
def construct (spx : Mat) (lambda Q tau cost0 : ℚ) : State :=
  { K_ := 0, D_ := spx.rows, N_ := spx.cols.length, cost_ := cost0, prevCost_ := cost0,
    spx_ := spx, ps_ := ⟨spx.rows, []⟩, Ns_ := [],
    z_ := List.replicate spx.cols.length UNASSIGNED, lambda_ := lambda,
    ts_ := [], ws_ := [], Q_ := Q, tau_ := tau, Kprev_ := 0, psPrev_ := ⟨spx.rows, []⟩ }

/-! ## The quantities of the specification -/

/-- The effective distance `sim_k` of cluster `k` to point `i` in the words of
the specification: the raw distance when `count[k] > 0`, and
`dist/(tau*age[k] + 1 + 1/weight[k]) + Q*age[k]` when `count[k] = 0`.  A
counter below zero, about which the specification is silent, is read like a
positive one. -/
def effectiveDist (M : Metric) (s : State) (i k : Nat) : ℚ :=
  let d := M.dist (s.ps_.cols.getD k []) (s.spx_.cols.getD i [])
  if 0 < s.Ns_.getD k 0 then d
  else if s.Ns_.getD k 0 = 0 then
    d / (s.tau_ * s.ts_.getD k 0 + 1 + 1 / s.ws_.getD k 0) + s.Q_ * s.ts_.getD k 0
  else d

/-- The centroid of cluster `k` after the Update Step, in the words of the
specification, from the state `s` before the step: with `(mean, n)` the result
of `computeCenter` for `k`, the fusion `(old*gamma + mean*n)/(gamma + n)` when
`n > 0` and `k < Kprev`, `mean` when `n > 0` and `k >= Kprev`, and the old
centroid otherwise. -/
def newCentroid (M : Metric) (s : State) (k : Nat) : Vec :=
  let r := M.computeCenter s.spx_ s.z_ k
  if 0 < r.2 then
    if (k : ℚ) < s.Kprev_ then
      Vec.sdiv
        (Vec.add (Vec.smul (s.ps_.cols.getD k []) (1 / (1 / s.ws_.getD k 0 + s.ts_.getD k 0 * s.tau_)))
          (Vec.smul r.1 (r.2 : ℚ)))
        (1 / (1 / s.ws_.getD k 0 + s.ts_.getD k 0 * s.tau_) + (r.2 : ℚ))
    else r.1
  else s.ps_.cols.getD k []

/-- The weight of cluster `k` after the commit, in the words of the
specification: `1/(1/weight + age*tau) + count` for an active cluster with an
entry, the old weight for a dormant one, and `count` for a cluster without an
entry. -/
def committedWeight (s : State) (k : Nat) : ℚ :=
  if k < s.ws_.length then
    if 0 < s.Ns_.getD k 0 then
      1 / (1 / s.ws_.getD k 0 + s.ts_.getD k 0 * s.tau_) + (s.Ns_.getD k 0 : ℚ)
    else s.ws_.getD k 0
  else (s.Ns_.getD k 0 : ℚ)

/-- The age of cluster `k` after the commit, in the words of the
specification: 1 for an active cluster and for a cluster without an entry, the
old age plus 1 for a dormant one. -/
def committedAge (s : State) (k : Nat) : ℚ :=
  if k < s.ws_.length then
    if 0 < s.Ns_.getD k 0 then 1 else s.ts_.getD k 0 + 1
  else 1

/-! ## Consistency conditions and loop invariants -/

/-- The registry is consistent enough for `indOfClosestCluster` to read it:
`K_` centroid columns and counters exist, and every cluster without members in
the batch has a weight and an age. -/
structure Readable (s : State) : Prop where
  ps_len : s.K_ ≤ s.ps_.cols.length
  Ns_len : s.K_ ≤ s.Ns_.length
  dormant_entry : ∀ k, k < s.K_ → s.Ns_.getD k 0 = 0 → k < s.ts_.length ∧ k < s.ws_.length

/-- The registry is consistent enough for `updateCenters`: `K_` counters and
centroid columns exist, and every cluster that is fused with its history has a
weight and an age. -/
structure Updatable (M : Metric) (s : State) : Prop where
  Ns_len : s.K_ ≤ s.Ns_.length
  ps_len : s.K_ ≤ s.ps_.cols.length
  fused_entry : ∀ k, k < s.K_ → 0 < (M.computeCenter s.spx_ s.z_ k).2 →
    (k : ℚ) < s.Kprev_ → k < s.ws_.length ∧ k < s.ts_.length

/-- The invariant of the search loop after clusters `0 .. k-1` were compared. -/
def BestSoFar (M : Metric) (s : State) (i k : Nat) (acc : Nat × ℚ) : Prop :=
  acc.2 ≤ s.lambda_ ∧ (∀ j, j < k → acc.2 ≤ effectiveDist M s i j) ∧
  ((acc.2 = s.lambda_ ∧ acc.1 = s.K_) ∨
   (acc.2 < s.lambda_ ∧ acc.1 < k ∧ effectiveDist M s i acc.1 = acc.2 ∧
     ∀ j, j < acc.1 → acc.2 < effectiveDist M s i j))

/-- The state with the counters and the centroid columns blanked out:
everything that `updateCenters` does not write. -/
def forgetCenters (s : State) : State := { s with Ns_ := [], ps_ := ⟨s.ps_.rows, []⟩ }

/-- The invariant of the loop of `updateCenters` after clusters `0 .. j-1`. -/
def CenterInv (M : Metric) (s : State) (j : Nat) (t : State) : Prop :=
  forgetCenters t = forgetCenters s ∧
  t.Ns_.length = s.Ns_.length ∧ t.ps_.cols.length = s.ps_.cols.length ∧
  (∀ k, k < j → t.ps_.cols[k]? = some (newCentroid M s k) ∧
    t.Ns_[k]? = some (M.computeCenter s.spx_ s.z_ k).2) ∧
  (∀ k, j ≤ k → t.ps_.cols[k]? = s.ps_.cols[k]? ∧ t.Ns_[k]? = s.Ns_[k]?)

/-- The state with the age and weight vectors blanked out: everything that
the loop of `updateState` does not write. -/
def forgetTemporal (s : State) : State := { s with ws_ := [], ts_ := [] }

/-- The invariant of the loop of `updateState` after clusters `0 .. j-1`. -/
def CommitInv (s : State) (j : Nat) (t : State) : Prop :=
  forgetTemporal t = forgetTemporal s ∧
  t.ws_.length = max s.ws_.length j ∧ t.ts_.length = max s.ws_.length j ∧
  (∀ k, k < j → t.ws_[k]? = some (committedWeight s k) ∧
    t.ts_[k]? = some (committedAge s k)) ∧
  (∀ k, j ≤ k → t.ws_[k]? = s.ws_[k]? ∧ t.ts_[k]? = s.ts_[k]?)

/-! ## Concrete inputs -/

/-- A registry with one dormant cluster (index 0, age 1, weight 1) and one
active cluster (index 1) in front of a one-point batch, used to instantiate
the theorems below. -/
def sampleState : State :=
  { K_ := 2, D_ := 1, N_ := 1, cost_ := 0, prevCost_ := 0,
    spx_ := ⟨1, [[3]]⟩, ps_ := ⟨1, [[0], [2]]⟩, Ns_ := [0, 1], z_ := [1],
    lambda_ := 5, ts_ := [1, 1], ws_ := [1, 1], Q_ := 1, tau_ := 1, Kprev_ := 2,
    psPrev_ := ⟨1, [[0], [2]]⟩ }

/-- The sample registry with a novelty threshold below every effective distance. -/
def farState : State := { sampleState with lambda_ := 1 / 2 }

/-- The sample registry in front of a point that the dormant cluster 0 wins. -/
def dormantState : State := { sampleState with spx_ := ⟨1, [[1]]⟩, Q_ := 0 }

/-- The sample registry before the commit of a time step that spawned cluster 1:
only cluster 0 has a weight and an age. -/
def spawnedState : State := { sampleState with ws_ := [1], ts_ := [1] }

/-- A batch without points. -/
def emptyBatch : Mat := ⟨2, []⟩

/-- A batch with the single point `(10,10)`. -/
def farBatch : Mat := ⟨2, [[10, 10]]⟩

/-- The state the driver reaches when the first batch is empty and the second
batch is `farBatch`: no cluster exists, and `nextTimeStep` has seeded the label
of the only point with `0`. -/
def orphanState : State :=
  { K_ := 0, D_ := 2, N_ := 1, cost_ := 0, prevCost_ := 0, spx_ := farBatch,
    ps_ := ⟨2, []⟩, Ns_ := [], z_ := [0], lambda_ := 1 / 2, ts_ := [], ws_ := [],
    Q_ := 1, tau_ := 1, Kprev_ := 0, psPrev_ := ⟨2, []⟩ }

/-- A batch with twice the point `(10,10)`. -/
def farPair : Mat := ⟨2, [[10, 10], [10, 10]]⟩

/-- The state the driver reaches when the first batch is empty and the second
batch is `farPair`: no cluster exists, and `nextTimeStep` has seeded both labels
with `0`. -/
def orphanPair : State := { orphanState with N_ := 2, spx_ := farPair, z_ := [0, 0] }

/-- A first batch with the single point `(0,0)`. -/
def oneBatch : Mat := ⟨2, [[0, 0]]⟩

/-- A second batch with the two points `(0,0)` and `(1,0)`. -/
def twoBatch : Mat := ⟨2, [[0, 0], [1, 0]]⟩

/-- A batch of dimension 1 with the two points `1` and `2`. -/
def pairBatch : Mat := ⟨1, [[1], [2]]⟩

/-- The first `n` iterations of the loop of `updateLabels`, after its two
opening assignments; `updateLabels` is `labelFirst` with `n = N_`. -/
def labelFirst (M : Metric) (n : Nat) (s : State) : Option State :=
  forLoop (labelPoint M) n 0 { s with prevCost_ := s.cost_, cost_ := 0 }

/-- What a run of `n` iterations of the loop of `updateLabels` from point `i`
observes, point by point in processing order: the value of `K_` before the
point, and the index and the score that `indOfClosestCluster` returns for it in
the registry left by the points before. -/
def passTrace (M : Metric) : Nat → Nat → State → List (Nat × Nat × ℚ)
  | 0, _, _ => []
  | n + 1, i, s =>
    match indOfClosestCluster M s i, labelPoint M s i with
    | some r, some s' => (s.K_, r.1, r.2) :: passTrace M n (i + 1) s'
    | _, _ => []

/-- The observations of a whole pass of `updateLabels`. -/
def updateTrace (M : Metric) (s : State) : List (Nat × Nat × ℚ) :=
  passTrace M s.N_ 0 { s with prevCost_ := s.cost_, cost_ := 0 }

/-- The number of observed points whose winner was the virtual new-cluster
option, that is, whose returned index was the current `K_`. -/
def spawnCount (tr : List (Nat × Nat × ℚ)) : Nat :=
  (tr.filter fun e => decide (e.2.1 = e.1)).length

/-- The sum of the observed winning scores. -/
def scoreSum (tr : List (Nat × Nat × ℚ)) : ℚ := (tr.map fun e => e.2.2).sum

/-- One call of the driver: an Assignment Step, an Update Step, a commit or a
data swap that returns. -/
inductive DriverStep (M : Metric) : State → State → Prop where
  | labels (s s' : State) : updateLabels M s = some s' → DriverStep M s s'
  | centers (s s' : State) : updateCenters M s = some s' → DriverStep M s s'
  | commit (s s' : State) : updateState s = some s' → DriverStep M s s'
  | swap (s s' : State) (spx : Mat) : nextTimeStep s spx = Outcome.done s' → DriverStep M s s'

/-- The state with everything blanked out that the loop body of `updateLabels`
writes: `K_`, the cost, the centroids, the counters and the labels. -/
def forgetAssignment (s : State) : State :=
  { s with K_ := 0, cost_ := 0, ps_ := ⟨0, []⟩, Ns_ := [], z_ := [] }

/-- The data swap followed by one Assignment/Update pass and the commit, as the
driver runs them. -/
def advanceAndCommit (M : Metric) (s : State) (spx : Mat) : Option State :=
  match nextTimeStep s spx with
  | Outcome.done t => passAndCommit M t
  | Outcome.aborted _ => none

/-- One Assignment Step followed by one Update Step: the body of the
convergence loop of the driver. -/
def assignUpdate (M : Metric) (s : State) : Option State :=
  (updateLabels M s).bind (updateCenters M)

/-- The data swap followed by a continuation `f` on the swapped state; a failed
assertion gives no state. -/
def swapThen (s : State) (spx : Mat) (f : State → Option State) : Option State :=
  match nextTimeStep s spx with
  | Outcome.done t => f t
  | Outcome.aborted _ => none

/-- A second batch with one far point and twice the point `(1,0)`. -/
def revisitBatch : Mat := ⟨2, [[10, 10], [1, 0], [1, 0]]⟩

/-- A second batch with the points `(0,0)`, `(1,0)`, `(0,0)`. -/
def tripleBatch : Mat := ⟨2, [[0, 0], [1, 0], [0, 0]]⟩

/-- The state the driver reaches from a fresh model with `lambda = 1/2`, `Q = 0`,
`tau = 1` on the batch `oneBatch` after one pass, the commit and the swap to
`revisitBatch`. -/
def revisitStart : State :=
  { K_ := 1, D_ := 2, N_ := 3, cost_ := 1 / 2, prevCost_ := 0, spx_ := revisitBatch,
    ps_ := ⟨2, [[0, 0]]⟩, Ns_ := [1], z_ := [0, 0, 0], lambda_ := 1 / 2, ts_ := [1],
    ws_ := [1], Q_ := 0, tau_ := 1, Kprev_ := 1, psPrev_ := ⟨2, [[0, 0]]⟩ }

/-- The state `revisitStart` after the first point of the Assignment Step. -/
def revisit1 : State :=
  { revisitStart with
    K_ := 2, cost_ := 1 / 2, prevCost_ := 1 / 2, ps_ := ⟨2, [[0, 0], [10, 10]]⟩,
    Ns_ := [0, 1], z_ := [1, 0, 0] }

/-- The state `revisitStart` after the first two points of the Assignment Step. -/
def revisit2 : State :=
  { revisit1 with cost_ := 5 / 6, ps_ := ⟨2, [[2 / 3, 0], [10, 10]]⟩ }

/-- The state `revisitStart` after the whole Assignment Step. -/
def revisit3 : State :=
  { revisit1 with cost_ := 47 / 54, ps_ := ⟨2, [[8 / 9, 0], [10, 10]]⟩ }

/-- The state the driver reaches from a fresh model with `lambda = Q = tau = 1`
on the batch `oneBatch` after one pass, the commit and the swap to
`tripleBatch`. -/
def tripleStart : State :=
  { K_ := 1, D_ := 2, N_ := 3, cost_ := 1, prevCost_ := 0, spx_ := tripleBatch,
    ps_ := ⟨2, [[0, 0]]⟩, Ns_ := [1], z_ := [0, 0, 0], lambda_ := 1, ts_ := [1],
    ws_ := [1], Q_ := 1, tau_ := 1, Kprev_ := 1, psPrev_ := ⟨2, [[0, 0]]⟩ }

/-- The state `tripleStart` after one Assignment Step and one Update Step. -/
def tripleOnce : State :=
  { tripleStart with
    K_ := 3, cost_ := 2, prevCost_ := 1, ps_ := ⟨2, [[0, 0], [1, 0], [0, 0]]⟩,
    Ns_ := [1, 1, 1], z_ := [0, 1, 2] }

/-- The state `tripleStart` after two Assignment and Update Steps: cluster 2,
spawned in the first pass, has lost its only member in the second pass and has
no weight and no age yet. -/
def emptiedState : State :=
  { K_ := 3, D_ := 2, N_ := 3, cost_ := 0, prevCost_ := 2, spx_ := tripleBatch,
    ps_ := ⟨2, [[0, 0], [1, 0], [0, 0]]⟩, Ns_ := [2, 1, 0], z_ := [0, 1, 0], lambda_ := 1,
    ts_ := [1], ws_ := [1], Q_ := 1, tau_ := 1, Kprev_ := 1, psPrev_ := ⟨2, [[0, 0]]⟩ }

/-- Count/label consistency: the label vector has `N_` entries and the counter
vector `K_`; every label is `UNASSIGNED` or a cluster index below `K_`; the
counter of every cluster is the number of points that carry its label. -/
structure Consistent (s : State) : Prop where
  z_len : s.z_.length = s.N_
  Ns_len : s.Ns_.length = s.K_
  labels : ∀ (i v : Nat), s.z_[i]? = some v → v = UNASSIGNED ∨ v < s.K_
  counts : ∀ k, k < s.K_ → s.Ns_[k]? = some (s.z_.count k : Int)

/-- A registry on which a pass of `updateLabels` stays inside its arrays
whatever the winners are: exactly `K_` centroid columns, at least `N_` points
in the batch, and a weight and an age for every cluster. -/
structure Passable (s : State) : Prop where
  ps_len : s.ps_.cols.length = s.K_
  spx_len : s.N_ ≤ s.spx_.cols.length
  ws_len : s.K_ ≤ s.ws_.length
  ts_len : s.K_ ≤ s.ts_.length

/-- A second batch with the points `(0,0)`, `(1,0)`, `(0,0)`, `(0,0)`. -/
def quadBatch : Mat := ⟨2, [[0, 0], [1, 0], [0, 0], [0, 0]]⟩

/-- The state the driver reaches from a fresh model with `lambda = Q = tau = 1`
on the batch `oneBatch` after one pass, the commit, the swap to `quadBatch`
and one Assignment Step and Update Step: three clusters with counts 2, 1, 1,
the last two spawned in this time step. -/
def quadOnce : State :=
  { K_ := 3, D_ := 2, N_ := 4, cost_ := 2, prevCost_ := 1, spx_ := quadBatch,
    ps_ := ⟨2, [[0, 0], [1, 0], [0, 0]]⟩, Ns_ := [2, 1, 1], z_ := [0, 1, 2, 0], lambda_ := 1,
    ts_ := [1], ws_ := [1], Q_ := 1, tau_ := 1, Kprev_ := 1, psPrev_ := ⟨2, [[0, 0]]⟩ }

/-! ## Generic lemmas -/

theorem getElem?_eq_some_getD {α : Type} (l : List α) (k : Nat) (d : α) (h : k < l.length) :
    l[k]? = some (l.getD k d) := by
  simp [List.getD, List.getElem?_eq_getElem h]

theorem forLoop_inv {σ : Type} (body : σ → Nat → Option σ) (P : Nat → σ → Prop) :
    ∀ (n k : Nat) (s : σ), P k s →
      (∀ j t, k ≤ j → j < k + n → P j t → ∃ t', body t j = some t' ∧ P (j + 1) t') →
      ∃ s', forLoop body n k s = some s' ∧ P (k + n) s' := by
  intro n
  induction n with
  | zero => intro k s h0 _; exact ⟨s, rfl, by simpa using h0⟩
  | succ n ih =>
    intro k s h0 hstep
    obtain ⟨t, ht, hP⟩ := hstep k s (le_refl k) (by omega) h0
    obtain ⟨s', hs', hP'⟩ := ih (k + 1) t hP (fun j u hj hlt hu =>
      hstep j u (by omega) (by omega) hu)
    refine ⟨s', ?_, ?_⟩
    · simp [forLoop, ht, hs']
    · have : k + (n + 1) = k + 1 + n := by omega
      rw [this]; exact hP'

/-! ## Winner selection -/

theorem closestBody_eq (M : Metric) (s : State) (i : Nat) (acc : Nat × ℚ) (k : Nat)
    (hcl : ∀ a b, M.closer a b = true ↔ a < b) (hr : Readable s)
    (hi : i < s.spx_.cols.length) (hk : k < s.K_) :
    closestBody M s i acc k =
      some (if effectiveDist M s i k < acc.2 then (k, effectiveDist M s i k) else acc) := by
  have hps : k < s.ps_.cols.length := lt_of_lt_of_le hk hr.ps_len
  have hNs : k < s.Ns_.length := lt_of_lt_of_le hk hr.Ns_len
  unfold closestBody effectiveDist dormantSim
  rw [getElem?_eq_some_getD _ k [] hps, getElem?_eq_some_getD _ i [] hi,
    getElem?_eq_some_getD _ k 0 hNs]
  simp only [Option.some_bind]
  by_cases hz : s.Ns_.getD k 0 = 0
  · obtain ⟨ht, hw⟩ := hr.dormant_entry k hk hz
    rw [getElem?_eq_some_getD _ k 0 ht, getElem?_eq_some_getD _ k 0 hw]
    simp only [hz, if_true, Option.some_bind, lt_irrefl, if_false]
    by_cases hc : M.dist (s.ps_.cols.getD k []) (s.spx_.cols.getD i []) /
        (s.tau_ * s.ts_.getD k 0 + 1 + 1 / s.ws_.getD k 0) + s.Q_ * s.ts_.getD k 0 < acc.2
    · rw [if_pos ((hcl _ _).2 hc), if_pos hc]
    · rw [if_neg (fun h => hc ((hcl _ _).1 h)), if_neg hc]
  · simp only [hz, if_false, Option.some_bind, ite_self]
    by_cases hc : M.dist (s.ps_.cols.getD k []) (s.spx_.cols.getD i []) < acc.2
    · rw [if_pos ((hcl _ _).2 hc), if_pos hc]
    · rw [if_neg (fun h => hc ((hcl _ _).1 h)), if_neg hc]

theorem bestSoFar_step (M : Metric) (s : State) (i k : Nat) (acc : Nat × ℚ)
    (h : BestSoFar M s i k acc) :
    BestSoFar M s i (k + 1)
      (if effectiveDist M s i k < acc.2 then (k, effectiveDist M s i k) else acc) := by
  obtain ⟨h1, h2, h3⟩ := h
  by_cases hc : effectiveDist M s i k < acc.2
  · simp only [hc, if_true]
    refine ⟨le_of_lt (lt_of_lt_of_le hc h1), ?_, Or.inr ⟨lt_of_lt_of_le hc h1, ?_, rfl, ?_⟩⟩
    · intro j hj
      rcases Nat.lt_succ_iff_lt_or_eq.1 hj with hlt | heq
      · exact le_of_lt (lt_of_lt_of_le hc (h2 j hlt))
      · subst heq; exact le_refl _
    · exact Nat.lt_succ_self k
    · intro j hj; exact lt_of_lt_of_le hc (h2 j hj)
  · simp only [hc, if_false]
    refine ⟨h1, ?_, ?_⟩
    · intro j hj
      rcases Nat.lt_succ_iff_lt_or_eq.1 hj with hlt | heq
      · exact h2 j hlt
      · subst heq; exact not_lt.1 hc
    · rcases h3 with h3 | ⟨a, b, c, d⟩
      · exact Or.inl h3
      · exact Or.inr ⟨a, Nat.lt_succ_of_lt b, c, d⟩

theorem indOfClosestCluster_bestSoFar (M : Metric) (s : State) (i : Nat)
    (hcl : ∀ a b, M.closer a b = true ↔ a < b) (hr : Readable s)
    (hi : i < s.spx_.cols.length) :
    ∃ r, indOfClosestCluster M s i = some r ∧ BestSoFar M s i s.K_ r := by
  have h := forLoop_inv (closestBody M s i) (fun k acc => BestSoFar M s i k acc)
    s.K_ 0 (s.K_, s.lambda_)
    ⟨le_refl _, fun j hj => absurd hj (Nat.not_lt_zero j), Or.inl ⟨rfl, rfl⟩⟩
    (fun j t _ hj hP => ⟨_, closestBody_eq M s i t j hcl hr hi (by omega),
      bestSoFar_step M s i j t hP⟩)
  simpa [indOfClosestCluster] using h

theorem sampleState_readable : Readable sampleState where
  ps_len := by decide
  Ns_len := by decide
  dormant_entry := by
    intro k hk _
    have hk2 : k < 2 := hk
    interval_cases k <;> simp [sampleState]

/-- C2: for a metric whose `closer(a,b)` is `a < b`, `indOfClosestCluster(i)`
returns as score the minimum of `lambda` and the effective distances of the
`K` clusters; when that score is strictly below `lambda` the returned index is
the smallest cluster index attaining it, and otherwise (also when a cluster
ties with `lambda`) it is `K`, the new-cluster option. -/
theorem indOfClosestCluster_winner (M : Metric) (s : State) (i : Nat)
    (hcl : ∀ a b, M.closer a b = true ↔ a < b) (hr : Readable s)
    (hi : i < s.spx_.cols.length) :
    ∃ z sim, indOfClosestCluster M s i = some (z, sim) ∧
      sim ≤ s.lambda_ ∧ (∀ k, k < s.K_ → sim ≤ effectiveDist M s i k) ∧
      (sim = s.lambda_ ∨ ∃ k, k < s.K_ ∧ sim = effectiveDist M s i k) ∧
      (sim < s.lambda_ → z < s.K_ ∧ effectiveDist M s i z = sim ∧
        ∀ j, j < z → effectiveDist M s i j ≠ sim) ∧
      (¬ sim < s.lambda_ → z = s.K_) := by
  obtain ⟨⟨z, sim⟩, hrun, h1, h2, h3⟩ := indOfClosestCluster_bestSoFar M s i hcl hr hi
  refine ⟨z, sim, hrun, h1, h2, ?_, ?_, ?_⟩
  · rcases h3 with ⟨a, _⟩ | ⟨_, b, c, _⟩
    · exact Or.inl a
    · exact Or.inr ⟨z, b, c.symm⟩
  · intro hlt
    rcases h3 with ⟨a, _⟩ | ⟨_, b, c, d⟩
    · exact absurd hlt (by simp at a; simp [a])
    · exact ⟨b, c, fun j hj => ne_of_gt (d j hj)⟩
  · intro hge
    rcases h3 with ⟨_, b⟩ | ⟨a, _⟩
    · exact b
    · exact absurd a hge

theorem indOfClosestCluster_winner_witness :
    ∃ z sim, indOfClosestCluster Euclidean sampleState 0 = some (z, sim) ∧
      sim ≤ sampleState.lambda_ ∧
      (∀ k, k < sampleState.K_ → sim ≤ effectiveDist Euclidean sampleState 0 k) ∧
      (sim = sampleState.lambda_ ∨
        ∃ k, k < sampleState.K_ ∧ sim = effectiveDist Euclidean sampleState 0 k) ∧
      (sim < sampleState.lambda_ → z < sampleState.K_ ∧
        effectiveDist Euclidean sampleState 0 z = sim ∧
        ∀ j, j < z → effectiveDist Euclidean sampleState 0 j ≠ sim) ∧
      (¬ sim < sampleState.lambda_ → z = sampleState.K_) :=
  indOfClosestCluster_winner Euclidean sampleState 0 (by simp [Euclidean])
    sampleState_readable (by decide)

/-! ## The loop body of `updateLabels` -/

theorem winner_of_far (M : Metric) (s : State) (i : Nat) (r : Nat × ℚ)
    (hb : BestSoFar M s i s.K_ r)
    (hfar : ∀ k, k < s.K_ → s.lambda_ < effectiveDist M s i k) :
    r = (s.K_, s.lambda_) := by
  obtain ⟨_, _, h3⟩ := hb
  rcases h3 with ⟨a, b⟩ | ⟨a, b, c, _⟩
  · exact Prod.ext b a
  · have := hfar r.1 b
    rw [c] at this
    exact absurd a (not_lt.2 (le_of_lt this))

theorem conservativeResize_length (v : List Int) (n : Nat) :
    (conservativeResize v n).length = n := by
  simp [conservativeResize]; omega

theorem conservativeResize_getElem? (v : List Int) (n k : Nat) (hk : k < n)
    (hv : k < v.length) : (conservativeResize v n)[k]? = v[k]? := by
  unfold conservativeResize
  rw [List.getElem?_append_left (by simp; omega), List.getElem?_take_of_lt hk]

theorem labelPoint_of_winner (M : Metric) (s : State) (i : Nat) (r : Nat × ℚ)
    (h : indOfClosestCluster M s i = some r) :
    labelPoint M s i =
      (if r.1 = s.K_ then spawnCluster { s with cost_ := s.cost_ + r.2 } i r.1
        else joinCluster { s with cost_ := s.cost_ + r.2 } i r.1).bind
        fun s1 => relabel s1 i r.1 := by
  unfold labelPoint
  rw [h]
  rfl

theorem spawnCluster_spec (s : State) (i z : Nat) (x : Vec) (hzK : z = s.K_)
    (hx : s.spx_.cols[i]? = some x) (hps : s.ps_.cols.length = s.K_) :
    ∃ s1, spawnCluster s i z = some s1 ∧ s1 = { s with
      ps_ := ⟨s.D_, s.ps_.cols ++ [x]⟩, K_ := s.K_ + 1,
      Ns_ := (conservativeResize s.Ns_ (s.K_ + 1)).set s.K_ 1 } := by
  subst hzK
  refine ⟨_, ?_, rfl⟩
  unfold spawnCluster
  rw [hx]
  simp only [Option.some_bind, hps, if_true, setAt, conservativeResize_length,
    Nat.lt_succ_self]

theorem relabel_unassigned (s : State) (i z : Nat) (hz : s.z_[i]? = some UNASSIGNED) :
    ∃ s1, relabel s i z = some s1 ∧ s1 = { s with z_ := s.z_.set i z } := by
  refine ⟨_, ?_, rfl⟩
  unfold relabel
  rw [hz]
  simp only [Option.some_bind, ne_eq, not_true_eq_false, if_false]

theorem relabel_assigned (s : State) (i z zo : Nat) (m : Int) (hz : s.z_[i]? = some zo)
    (hne : zo ≠ UNASSIGNED) (hm : s.Ns_[zo]? = some m) :
    ∃ s1, relabel s i z = some s1 ∧
      s1 = { s with Ns_ := s.Ns_.set zo (m - 1), z_ := s.z_.set i z } := by
  refine ⟨_, ?_, rfl⟩
  unfold relabel
  rw [hz]
  simp only [Option.some_bind, ne_eq, hne, not_false_eq_true, if_true, hm]

/-- The spawn step away from the seeded labels: for a metric whose
`closer(a,b)` is `a < b`, when every existing cluster has an effective
distance to point `i` above `lambda` and the previous label of the point is `UNASSIGNED` or a cluster index below `K`,
processing the point labels it with the old `K`, increases `K` by one, appends
the point itself as centroid column `K`, keeps every earlier column, sets the
count of the new cluster to 1 and adds exactly `lambda` to the cost. -/
theorem labelPoint_spawn (M : Metric) (s : State) (i : Nat) (x : Vec) (zo : Nat)
    (hcl : ∀ a b, M.closer a b = true ↔ a < b) (hr : Readable s)
    (hps : s.ps_.cols.length = s.K_)
    (hx : s.spx_.cols[i]? = some x) (hz : s.z_[i]? = some zo)
    (hold : zo ≠ UNASSIGNED → zo < s.K_)
    (hfar : ∀ k, k < s.K_ → s.lambda_ < effectiveDist M s i k) :
    ∃ s', labelPoint M s i = some s' ∧ s'.z_[i]? = some s.K_ ∧ s'.K_ = s.K_ + 1 ∧
      s'.ps_.cols.length = s.K_ + 1 ∧
      s'.ps_.cols[s.K_]? = some x ∧
      (∀ k, k < s.K_ → s'.ps_.cols[k]? = s.ps_.cols[k]?) ∧
      s'.Ns_[s.K_]? = some 1 ∧ s'.cost_ = s.cost_ + s.lambda_ := by
  have hi : i < s.spx_.cols.length := (List.getElem?_eq_some_iff.1 hx).1
  have hiz : i < s.z_.length := (List.getElem?_eq_some_iff.1 hz).1
  obtain ⟨r, hrun, hb⟩ := indOfClosestCluster_bestSoFar M s i hcl hr hi
  have hr2 := winner_of_far M s i r hb hfar
  subst hr2
  rw [labelPoint_of_winner M s i _ hrun]
  obtain ⟨s1, h1, e1⟩ := spawnCluster_spec { s with cost_ := s.cost_ + s.lambda_ } i s.K_ x
    rfl hx hps
  simp only [if_true]
  rw [h1]
  simp only [Option.some_bind]
  have hz1 : s1.z_[i]? = some zo := by rw [e1]; exact hz
  have hcols1 : (s.ps_.cols ++ [x])[s.K_]? = some x := by
    rw [← hps]; simp
  have hcols2 : ∀ k, k < s.K_ → (s.ps_.cols ++ [x])[k]? = s.ps_.cols[k]? := by
    intro k hk; rw [List.getElem?_append_left (by omega)]
  by_cases hun : zo = UNASSIGNED
  · subst hun
    obtain ⟨s2, h2, e2⟩ := relabel_unassigned s1 i s.K_ hz1
    refine ⟨s2, h2, ?_, ?_, ?_, ?_, ?_, ?_, ?_⟩ <;> rw [e2, e1]
    · simp [hiz]
    · simp [hps]
    · exact hcols1
    · exact hcols2
    · simp [conservativeResize_length]
  · have hlt := hold hun
    have hzoN : zo < s.Ns_.length := lt_of_lt_of_le hlt hr.Ns_len
    have hm : s1.Ns_[zo]? = some (s.Ns_.getD zo 0) := by
      rw [e1]
      show ((conservativeResize s.Ns_ (s.K_ + 1)).set s.K_ 1)[zo]? = _
      rw [List.getElem?_set_ne (by omega), conservativeResize_getElem? _ _ _ (by omega) hzoN,
        getElem?_eq_some_getD _ _ 0 hzoN]
    obtain ⟨s2, h2, e2⟩ := relabel_assigned s1 i s.K_ zo _ hz1 hun hm
    refine ⟨s2, h2, ?_, ?_, ?_, ?_, ?_, ?_, ?_⟩ <;> rw [e2, e1]
    · simp [hiz]
    · simp [hps]
    · exact hcols1
    · exact hcols2
    · show (((conservativeResize s.Ns_ (s.K_ + 1)).set s.K_ 1).set zo _)[s.K_]? = some 1
      rw [List.getElem?_set_ne (by omega)]
      simp [conservativeResize_length]

theorem labelPoint_spawn_witness :
    ∃ s', labelPoint Euclidean farState 0 = some s' ∧ s'.z_[0]? = some farState.K_ ∧
      s'.K_ = farState.K_ + 1 ∧ s'.ps_.cols.length = farState.K_ + 1 ∧
      s'.ps_.cols[farState.K_]? = some [3] ∧
      (∀ k, k < farState.K_ → s'.ps_.cols[k]? = farState.ps_.cols[k]?) ∧
      s'.Ns_[farState.K_]? = some 1 ∧ s'.cost_ = farState.cost_ + farState.lambda_ :=
  labelPoint_spawn Euclidean farState 0 [3] 1 (by simp [Euclidean])
    ⟨by decide, by decide,
      by intro k hk _; have hk2 : k < 2 := hk; interval_cases k <;> simp [farState, sampleState]⟩
    (by decide) (by simp [farState, sampleState]) (by simp [farState, sampleState])
    (by intro _; decide)
    (by
      intro k hk
      have hk2 : k < 2 := hk
      interval_cases k <;>
        norm_num [farState, sampleState, effectiveDist, Euclidean, sqDist])

/-- C3 (failing run): the driver run "empty first batch, commit, then the
batch `farBatch`" reaches `orphanState`, where no cluster exists, so the only
point spawns cluster 0; its count is set to 1 and then decremented again
because the label `0` seeded by `nextTimeStep` is released: the new cluster
ends with count 0, not 1.  With the two-point batch `farPair` in place of
`farBatch` (state `orphanPair`) the first point leaves the same registry, one
cluster with count 0 and no weight and no age, and the scan for the second
point reads `ts_[0]` and `ws_[0]`, which do not exist. -/
theorem labelPoint_spawn_count_failing_run :
    (passAndCommit Euclidean (construct emptyBatch (1 / 2) 1 1 0)).map
        (fun s => nextTimeStep s farBatch) = some (Outcome.done orphanState) ∧
      (∀ k, k < orphanState.K_ →
        orphanState.lambda_ < effectiveDist Euclidean orphanState 0 k) ∧
      (labelPoint Euclidean orphanState 0).map (fun s => (s.K_, s.z_, s.Ns_, s.ps_.cols))
        = some (1, [0], [0], [[10, 10]]) ∧
      (labelPoint Euclidean orphanState 0).bind (fun s => s.Ns_[orphanState.K_]?) ≠ some 1 ∧
      (passAndCommit Euclidean (construct emptyBatch (1 / 2) 1 1 0)).map
        (fun s => nextTimeStep s farPair) = some (Outcome.done orphanPair) ∧
      (labelFirst Euclidean 1 orphanPair).map
          (fun s => (s.K_, s.z_, s.Ns_, s.ps_.cols, s.ws_, s.ts_))
        = some (1, [0, 0], [0], [[10, 10]], [], []) ∧
      updateLabels Euclidean orphanPair = none := by
  refine ⟨?_, ?_, ?_, ?_, ?_, ?_, ?_⟩
  · simp [passAndCommit, construct, emptyBatch, farBatch, orphanState, updateLabels, forLoop,
      updateCenters, updateState, nextTimeStep]
  · intro k hk
    exact absurd hk (Nat.not_lt_zero k)
  · simp [orphanState, farBatch, labelPoint, indOfClosestCluster, forLoop, spawnCluster,
      relabel, setAt, conservativeResize, UNASSIGNED]
  · simp [orphanState, farBatch, labelPoint, indOfClosestCluster, forLoop, spawnCluster,
      relabel, setAt, conservativeResize, UNASSIGNED]
  · with_unfolding_all rfl
  · with_unfolding_all rfl
  · with_unfolding_all rfl

theorem joinCluster_dormant (s : State) (i k : Nat) (w t : ℚ) (c x : Vec)
    (hcount : s.Ns_[k]? = some 0) (hw : s.ws_[k]? = some w) (ht : s.ts_[k]? = some t)
    (hc : s.ps_.cols[k]? = some c) (hx : s.spx_.cols[i]? = some x) :
    ∃ s1, joinCluster s i k = some s1 ∧ s1 = { s with
      ps_ := { s.ps_ with cols := s.ps_.cols.set k (fusePoint (gammaOf w t s.tau_) c x) },
      Ns_ := s.Ns_.set k (0 + 1) } := by
  refine ⟨_, ?_, rfl⟩
  unfold joinCluster
  rw [hcount]
  simp only [Option.some_bind, if_true, hw, ht, hc, hx, hcount]

/-- C4: when the winner for point `i` is an existing cluster `k < K` that has
no member yet in this batch (and has a weight and an age), processing the point
replaces centroid `k` by `(centroid_k*gamma + x_i)/(gamma + 1)` with
`gamma = 1/(1/weight[k] + age[k]*tau)`, labels the point with `k`, and leaves
`K`, the number of centroid columns and every other column unchanged. -/
theorem labelPoint_reactivate (M : Metric) (s : State) (i k : Nat) (sim w t : ℚ)
    (c x : Vec) (zo : Nat)
    (hwin : indOfClosestCluster M s i = some (k, sim)) (hk : k < s.K_)
    (hcount : s.Ns_[k]? = some 0) (hw : s.ws_[k]? = some w) (ht : s.ts_[k]? = some t)
    (hc : s.ps_.cols[k]? = some c) (hx : s.spx_.cols[i]? = some x)
    (hz : s.z_[i]? = some zo) (hold : zo ≠ UNASSIGNED → zo < s.Ns_.length) :
    ∃ s', labelPoint M s i = some s' ∧
      s'.ps_.cols[k]? =
        some (((c.smul (1 / (1 / w + t * s.tau_))).add x).sdiv (1 / (1 / w + t * s.tau_) + 1)) ∧
      s'.z_[i]? = some k ∧ s'.K_ = s.K_ ∧ s'.ps_.cols.length = s.ps_.cols.length ∧
      ∀ j, j ≠ k → s'.ps_.cols[j]? = s.ps_.cols[j]? := by
  have hiz : i < s.z_.length := (List.getElem?_eq_some_iff.1 hz).1
  have hkc : k < s.ps_.cols.length := (List.getElem?_eq_some_iff.1 hc).1
  rw [labelPoint_of_winner M s i _ hwin]
  obtain ⟨s1, h1, e1⟩ := joinCluster_dormant { s with cost_ := s.cost_ + sim } i k w t c x
    hcount hw ht hc hx
  simp only [if_neg (Nat.ne_of_lt hk)]
  rw [h1]
  simp only [Option.some_bind]
  have hz1 : s1.z_[i]? = some zo := by rw [e1]; exact hz
  by_cases hun : zo = UNASSIGNED
  · subst hun
    obtain ⟨s2, h2, e2⟩ := relabel_unassigned s1 i k hz1
    refine ⟨s2, h2, ?_, ?_, ?_, ?_, ?_⟩ <;> rw [e2, e1]
    · simp [hkc, fusePoint, gammaOf]
    · simp [hiz]
    · simp
    · intro j hj
      simp [List.getElem?_set_ne (Ne.symm hj)]
  · have hlt := hold hun
    have hm : s1.Ns_[zo]? = some ((s.Ns_.set k (0 + 1)).getD zo 0) := by
      rw [e1]
      exact getElem?_eq_some_getD _ _ 0 (by simpa using hlt)
    obtain ⟨s2, h2, e2⟩ := relabel_assigned s1 i k zo _ hz1 hun hm
    refine ⟨s2, h2, ?_, ?_, ?_, ?_, ?_⟩ <;> rw [e2, e1]
    · simp [hkc, fusePoint, gammaOf]
    · simp [hiz]
    · simp
    · intro j hj
      simp [List.getElem?_set_ne (Ne.symm hj)]

theorem labelPoint_reactivate_witness :
    ∃ s', labelPoint Euclidean dormantState 0 = some s' ∧
      s'.ps_.cols[0]? =
        some (Vec.sdiv (Vec.add (Vec.smul [0] (1 / (1 / 1 + 1 * dormantState.tau_))) [1])
          (1 / (1 / 1 + 1 * dormantState.tau_) + 1)) ∧
      s'.z_[0]? = some 0 ∧ s'.K_ = dormantState.K_ ∧
      s'.ps_.cols.length = dormantState.ps_.cols.length ∧
      ∀ j, j ≠ 0 → s'.ps_.cols[j]? = dormantState.ps_.cols[j]? :=
  labelPoint_reactivate Euclidean dormantState 0 0 (1 / 3) 1 1 [0] [1] 1
    (by
      norm_num [dormantState, sampleState, indOfClosestCluster, forLoop, closestBody,
        Euclidean, sqDist, dormantSim])
    (by decide) (by simp [dormantState, sampleState]) (by simp [dormantState, sampleState])
    (by simp [dormantState, sampleState]) (by simp [dormantState, sampleState])
    (by simp [dormantState, sampleState]) (by simp [dormantState, sampleState])
    (by intro _; decide)

/-! ## The commit `updateState` -/

theorem stateBody_step (s t : State) (j : Nat) (hlen : s.ws_.length = s.ts_.length)
    (hNs : s.K_ ≤ s.Ns_.length) (hj : j < s.K_) (h : CommitInv s j t) :
    ∃ t', stateBody t j = some t' ∧ CommitInv s (j + 1) t' := by
  obtain ⟨hf, hwl, htl, hdone, htodo⟩ := h
  have hNsEq : t.Ns_ = s.Ns_ := by
    have := congrArg State.Ns_ hf; exact this
  have htau : t.tau_ = s.tau_ := by
    have := congrArg State.tau_ hf; exact this
  have hjN : j < s.Ns_.length := lt_of_lt_of_le hj hNs
  have hn : t.Ns_[j]? = some (s.Ns_.getD j 0) := by
    rw [hNsEq]; exact getElem?_eq_some_getD _ _ 0 hjN
  by_cases hjL : j < s.ws_.length
  · -- the cluster has an entry
    have hjw : j < t.ws_.length := by rw [hwl]; exact lt_max_of_lt_left hjL
    have hjt : j < t.ts_.length := by rw [htl]; exact lt_max_of_lt_left hjL
    have hw : t.ws_[j]? = some (s.ws_.getD j 0) := by
      rw [(htodo j (le_refl j)).1]; exact getElem?_eq_some_getD _ _ 0 hjL
    have ht : t.ts_[j]? = some (s.ts_.getD j 0) := by
      rw [(htodo j (le_refl j)).2]; exact getElem?_eq_some_getD _ _ 0 (hlen ▸ hjL)
    by_cases hpos : 0 < s.Ns_.getD j 0
    · refine ⟨{ t with
          ws_ := t.ws_.set j (1 / (1 / s.ws_.getD j 0 + s.ts_.getD j 0 * t.tau_) +
            (s.Ns_.getD j 0 : ℚ)),
          ts_ := (t.ts_.set j 0).set j (0 + 1) }, ?_, ?_, ?_, ?_, ?_, ?_⟩
      · unfold stateBody
        rw [hn]
        simp only [Option.some_bind, hjw, hpos, and_self, if_true, hw, ht, setAt, hjt,
          List.getElem?_set_self hjt]
      · exact hf
      · simp only [List.length_set]; rw [hwl]; omega
      · simp only [List.length_set]; rw [htl]; omega
      · intro k hk
        rcases Nat.lt_succ_iff_lt_or_eq.1 hk with hlt | heq
        · have hne : j ≠ k := by omega
          simp only [List.getElem?_set_ne hne]
          exact hdone k hlt
        · subst heq
          have hjt0 : k < (t.ts_.set k 0).length := by simpa using hjt
          refine ⟨?_, ?_⟩
          · show (t.ws_.set k _)[k]? = _
            rw [List.getElem?_set_self hjw]
            simp only [committedWeight, hjL, hpos, if_true, htau]
          · show ((t.ts_.set k 0).set k (0 + 1))[k]? = _
            rw [List.getElem?_set_self hjt0]
            simp only [committedAge, hjL, hpos, if_true, zero_add]
      · intro k hk
        have hne : j ≠ k := by omega
        simp only [List.getElem?_set_ne hne]
        exact htodo k (by omega)
    · refine ⟨{ t with ts_ := t.ts_.set j (s.ts_.getD j 0 + 1) }, ?_, ?_, ?_, ?_, ?_, ?_⟩
      · unfold stateBody
        rw [hn]
        simp only [Option.some_bind, hjw, hpos, and_false, if_false, not_le.2 hjw, ht]
      · exact hf
      · show t.ws_.length = _; rw [hwl]; omega
      · simp only [List.length_set]; rw [htl]; omega
      · intro k hk
        rcases Nat.lt_succ_iff_lt_or_eq.1 hk with hlt | heq
        · have hne : j ≠ k := by omega
          simp only [List.getElem?_set_ne hne]
          exact hdone k hlt
        · subst heq
          simp only [List.getElem?_set_self hjt, committedWeight, committedAge, hjL, hpos,
            if_true, if_false, hw, and_self]
      · intro k hk
        have hne : j ≠ k := by omega
        simp only [List.getElem?_set_ne hne]
        exact htodo k (by omega)
  · -- the cluster was spawned in this time step
    have hwj : t.ws_.length = j := by rw [hwl]; omega
    have htj : t.ts_.length = j := by rw [htl]; omega
    refine ⟨{ t with
        ts_ := (t.ts_ ++ [0]).set j (0 + 1),
        ws_ := t.ws_ ++ [(s.Ns_.getD j 0 : ℚ)] }, ?_, ?_, ?_, ?_, ?_, ?_⟩
    · unfold stateBody
      rw [hn]
      have h0 : (t.ts_ ++ [0])[j]? = some 0 := by rw [← htj]; simp
      simp only [Option.some_bind, hwj, lt_irrefl, false_and, if_false, le_refl, if_true, h0]
    · exact hf
    · simp only [List.length_append, List.length_singleton]; rw [hwj]; omega
    · simp only [List.length_set, List.length_append, List.length_singleton]; rw [htj]; omega
    · intro k hk
      rcases Nat.lt_succ_iff_lt_or_eq.1 hk with hlt | heq
      · have hne : j ≠ k := by omega
        simp only [List.getElem?_set_ne hne]
        rw [List.getElem?_append_left (by omega), List.getElem?_append_left (by omega)]
        exact hdone k hlt
      · subst heq
        have hjl : k < (t.ts_ ++ [0]).length := by simp [htj]
        refine ⟨?_, ?_⟩
        · show (t.ws_ ++ [(s.Ns_.getD k 0 : ℚ)])[k]? = _
          rw [List.getElem?_append_right (by omega)]
          simp [hwj, committedWeight, hjL]
        · show ((t.ts_ ++ [0]).set k (0 + 1))[k]? = _
          rw [List.getElem?_set_self hjl]
          simp [committedAge, hjL]
    · intro k hk
      have hne : j ≠ k := by omega
      simp only [List.getElem?_set_ne hne]
      have h1 : (t.ws_ ++ [(s.Ns_.getD j 0 : ℚ)])[k]? = none := by
        apply List.getElem?_eq_none; simp; omega
      have h2 : (t.ts_ ++ [(0 : ℚ)])[k]? = none := by
        apply List.getElem?_eq_none; simp; omega
      have h3 : s.ws_[k]? = none := by apply List.getElem?_eq_none; omega
      have h4 : s.ts_[k]? = none := by apply List.getElem?_eq_none; omega
      show (t.ws_ ++ [(s.Ns_.getD j 0 : ℚ)])[k]? = _ ∧ (t.ts_ ++ [(0 : ℚ)])[k]? = _
      rw [h1, h2, h3, h4]; exact ⟨rfl, rfl⟩

theorem updateState_loop (s : State) (hlen : s.ws_.length = s.ts_.length)
    (hNs : s.K_ ≤ s.Ns_.length) :
    ∃ t, forLoop stateBody s.K_ 0 s = some t ∧ CommitInv s s.K_ t := by
  have h := forLoop_inv stateBody (fun j t => CommitInv s j t) s.K_ 0 s
    ⟨rfl, by simp, by simp [hlen], fun k hk => absurd hk (Nat.not_lt_zero k),
      fun k _ => ⟨rfl, rfl⟩⟩
    (fun j t _ hj hP => stateBody_step s t j hlen hNs (by omega) hP)
  simpa using h

theorem updateState_spec (s : State) (hlen : s.ws_.length = s.ts_.length)
    (hNs : s.K_ ≤ s.Ns_.length) :
    ∃ t s', CommitInv s s.K_ t ∧ updateState s = some s' ∧
      s' = { t with psPrev_ := t.ps_, Kprev_ := (t.K_ : ℚ) } := by
  obtain ⟨t, ht, hinv⟩ := updateState_loop s hlen hNs
  refine ⟨t, _, hinv, ?_, rfl⟩
  unfold updateState
  rw [ht]
  rfl

theorem getD_of_getElem? {α : Type} (l : List α) (k : Nat) (d v : α) (h : l[k]? = some v) :
    l.getD k d = v := by
  simp [List.getD_eq_getElem?_getD, h]

/-- C8: for a cluster `k < K` that already has a weight and an age when
`updateState` is called (the two vectors having equal length), the commit
leaves age 1 and weight `1/(1/weight_before + age_before*tau) + count[k]` when
`count[k] > 0`, and age `age_before + 1` with the weight unchanged when
`count[k] = 0`. -/
theorem updateState_commit (s : State) (k : Nat) (w a : ℚ) (n : Int)
    (hlen : s.ws_.length = s.ts_.length) (hNs : s.K_ ≤ s.Ns_.length) (hk : k < s.K_)
    (hw : s.ws_[k]? = some w) (ha : s.ts_[k]? = some a) (hn : s.Ns_[k]? = some n) :
    ∃ s', updateState s = some s' ∧
      (0 < n → s'.ts_[k]? = some 1 ∧ s'.ws_[k]? = some (1 / (1 / w + a * s.tau_) + (n : ℚ))) ∧
      (n = 0 → s'.ts_[k]? = some (a + 1) ∧ s'.ws_[k]? = some w) := by
  obtain ⟨t, s', ⟨_, _, _, hdone, _⟩, hrun, e⟩ := updateState_spec s hlen hNs
  have hkw : k < s.ws_.length := (List.getElem?_eq_some_iff.1 hw).1
  have hwD := getD_of_getElem? _ _ 0 _ hw
  have haD := getD_of_getElem? _ _ 0 _ ha
  have hnD := getD_of_getElem? _ _ 0 _ hn
  obtain ⟨h1, h2⟩ := hdone k hk
  have h1' : s'.ws_[k]? = some (committedWeight s k) := by rw [e]; exact h1
  have h2' : s'.ts_[k]? = some (committedAge s k) := by rw [e]; exact h2
  refine ⟨s', hrun, ?_, ?_⟩
  · intro hpos
    rw [h1', h2']
    simp only [committedWeight, committedAge, hkw, if_true, hwD, haD, hnD, hpos, and_self]
  · intro hz
    rw [h1', h2']
    simp only [committedWeight, committedAge, hkw, if_true, hwD, haD, hnD, hz, lt_irrefl,
      if_false, and_self]

theorem updateState_commit_witness :
    ∃ s', updateState sampleState = some s' ∧
      ((0 : Int) < 1 → s'.ts_[1]? = some 1 ∧
        s'.ws_[1]? = some (1 / (1 / 1 + 1 * sampleState.tau_) + ((1 : Int) : ℚ))) ∧
      ((1 : Int) = 0 → s'.ts_[1]? = some (1 + 1) ∧ s'.ws_[1]? = some 1) :=
  updateState_commit sampleState 1 1 1 1 (by decide) (by decide) (by decide)
    (by simp [sampleState]) (by simp [sampleState]) (by simp [sampleState])

/-- C9: when the weight and age vectors have the same length `L <= K` (and a
counter exists for each of the `K` clusters), `updateState` stays inside the
bounds of both vectors and returns; afterwards both vectors have length `K`,
every cluster `k` with `L <= k < K` has age 1 and weight `count[k]`, `Kprev`
is `K`, `prevCentroids` is the centroid matrix, and `K`, the centroids, the
counts and the labels are unchanged. -/
theorem updateState_spawned_and_snapshot (s : State)
    (hlen : s.ws_.length = s.ts_.length) (hL : s.ws_.length ≤ s.K_)
    (hNs : s.K_ ≤ s.Ns_.length) :
    ∃ s', updateState s = some s' ∧ s'.ws_.length = s.K_ ∧ s'.ts_.length = s.K_ ∧
      (∀ k n, s.ws_.length ≤ k → k < s.K_ → s.Ns_[k]? = some n →
        s'.ts_[k]? = some 1 ∧ s'.ws_[k]? = some (n : ℚ)) ∧
      s'.Kprev_ = (s.K_ : ℚ) ∧ s'.psPrev_ = s'.ps_ ∧
      s'.K_ = s.K_ ∧ s'.ps_ = s.ps_ ∧ s'.Ns_ = s.Ns_ ∧ s'.z_ = s.z_ := by
  obtain ⟨t, s', ⟨hf, hwl, htl, hdone, _⟩, hrun, e⟩ := updateState_spec s hlen hNs
  have hK : t.K_ = s.K_ := by have := congrArg State.K_ hf; exact this
  have hps : t.ps_ = s.ps_ := by have := congrArg State.ps_ hf; exact this
  have hN : t.Ns_ = s.Ns_ := by have := congrArg State.Ns_ hf; exact this
  have hz : t.z_ = s.z_ := by have := congrArg State.z_ hf; exact this
  refine ⟨s', hrun, ?_, ?_, ?_, ?_, ?_, ?_, ?_, ?_, ?_⟩ <;> rw [e]
  · show t.ws_.length = _; rw [hwl]; omega
  · show t.ts_.length = _; rw [htl]; omega
  · intro k n hLk hk hn
    obtain ⟨h1, h2⟩ := hdone k hk
    have hnD := getD_of_getElem? _ _ 0 _ hn
    refine ⟨?_, ?_⟩
    · show t.ts_[k]? = _
      rw [h2]; simp only [committedAge, not_lt.2 hLk, if_false]
    · show t.ws_[k]? = _
      rw [h1]; simp only [committedWeight, not_lt.2 hLk, if_false, hnD]
  · show (t.K_ : ℚ) = _; rw [hK]
  · exact hK
  · exact hps
  · exact hN
  · exact hz

theorem updateState_spawned_and_snapshot_witness :
    ∃ s', updateState spawnedState = some s' ∧ s'.ws_.length = spawnedState.K_ ∧
      s'.ts_.length = spawnedState.K_ ∧
      (∀ k n, spawnedState.ws_.length ≤ k → k < spawnedState.K_ →
        spawnedState.Ns_[k]? = some n → s'.ts_[k]? = some 1 ∧ s'.ws_[k]? = some (n : ℚ)) ∧
      s'.Kprev_ = (spawnedState.K_ : ℚ) ∧ s'.psPrev_ = s'.ps_ ∧
      s'.K_ = spawnedState.K_ ∧ s'.ps_ = spawnedState.ps_ ∧ s'.Ns_ = spawnedState.Ns_ ∧
      s'.z_ = spawnedState.z_ :=
  updateState_spawned_and_snapshot spawnedState (by decide) (by decide) (by decide)

/-! ## The Update Step `updateCenters` -/

theorem centerBody_step (M : Metric) (s t : State) (j : Nat) (hu : Updatable M s)
    (hj : j < s.K_) (h : CenterInv M s j t) :
    ∃ t', centerBody M t j = some t' ∧ CenterInv M s (j + 1) t' := by
  obtain ⟨hf, hNl, hpl, hdone, htodo⟩ := h
  have hspx : t.spx_ = s.spx_ := by have := congrArg State.spx_ hf; exact this
  have hz : t.z_ = s.z_ := by have := congrArg State.z_ hf; exact this
  have hws : t.ws_ = s.ws_ := by have := congrArg State.ws_ hf; exact this
  have hts : t.ts_ = s.ts_ := by have := congrArg State.ts_ hf; exact this
  have htau : t.tau_ = s.tau_ := by have := congrArg State.tau_ hf; exact this
  have hKp : t.Kprev_ = s.Kprev_ := by have := congrArg State.Kprev_ hf; exact this
  have hrows : t.ps_.rows = s.ps_.rows := by
    have := congrArg (fun u => u.ps_.rows) hf; exact this
  have hjN : j < t.Ns_.length := by rw [hNl]; exact lt_of_lt_of_le hj hu.Ns_len
  have hjp : j < s.ps_.cols.length := lt_of_lt_of_le hj hu.ps_len
  have hjp' : j < t.ps_.cols.length := by rw [hpl]; exact hjp
  have hc : t.ps_.cols[j]? = some (s.ps_.cols.getD j []) := by
    rw [(htodo j (le_refl j)).1]; exact getElem?_eq_some_getD _ _ [] hjp
  -- the two frames that are reused in every case
  have hrest : ∀ (cs : List Vec), cs.length = t.ps_.cols.length →
      (∀ k, j ≠ k → cs[k]? = t.ps_.cols[k]?) →
      cs[j]? = some (newCentroid M s j) →
      CenterInv M s (j + 1)
        { t with
          Ns_ := t.Ns_.set j (M.computeCenter s.spx_ s.z_ j).2,
          ps_ := { t.ps_ with cols := cs } } := by
    intro cs hcl hother hself
    refine ⟨?_, ?_, ?_, ?_, ?_⟩
    · exact hf
    · simp only [List.length_set]; exact hNl
    · show cs.length = _; rw [hcl]; exact hpl
    · intro k hk
      rcases Nat.lt_succ_iff_lt_or_eq.1 hk with hlt | heq
      · have hne : j ≠ k := by omega
        refine ⟨?_, ?_⟩
        · show cs[k]? = _; rw [hother k hne]; exact (hdone k hlt).1
        · show (t.Ns_.set j _)[k]? = _
          rw [List.getElem?_set_ne hne]; exact (hdone k hlt).2
      · subst heq
        refine ⟨hself, ?_⟩
        show (t.Ns_.set k _)[k]? = _
        rw [List.getElem?_set_self hjN]
    · intro k hk
      have hne : j ≠ k := by omega
      refine ⟨?_, ?_⟩
      · show cs[k]? = _; rw [hother k hne]; exact (htodo k (by omega)).1
      · show (t.Ns_.set j _)[k]? = _
        rw [List.getElem?_set_ne hne]; exact (htodo k (by omega)).2
  by_cases hpos : 0 < (M.computeCenter s.spx_ s.z_ j).2
  · by_cases hprev : (j : ℚ) < s.Kprev_
    · obtain ⟨hjw, hjt⟩ := hu.fused_entry j hj hpos hprev
      have hw : t.ws_[j]? = some (s.ws_.getD j 0) := by
        rw [hws]; exact getElem?_eq_some_getD _ _ 0 hjw
      have ht : t.ts_[j]? = some (s.ts_.getD j 0) := by
        rw [hts]; exact getElem?_eq_some_getD _ _ 0 hjt
      refine ⟨_, ?_, hrest (t.ps_.cols.set j (newCentroid M s j)) (by simp)
        (fun k hne => List.getElem?_set_ne hne) (List.getElem?_set_self hjp')⟩
      unfold centerBody
      simp only [hspx, hz, setAt, hjN, if_true, Option.some_bind, hpos, hKp, hprev, hw, ht, hc,
        htau, newCentroid, fuseMean, gammaOf, Vec.sdiv, Vec.add, Vec.smul]
    · refine ⟨_, ?_, hrest (t.ps_.cols.set j (newCentroid M s j)) (by simp)
        (fun k hne => List.getElem?_set_ne hne) (List.getElem?_set_self hjp')⟩
      unfold centerBody
      simp only [hspx, hz, setAt, hjN, if_true, Option.some_bind, hpos, hKp, hprev, if_false,
        hjp', newCentroid]
  · refine ⟨_, ?_, hrest t.ps_.cols rfl (fun k _ => rfl) ?_⟩
    · unfold centerBody
      simp only [hspx, hz, setAt, hjN, if_true, Option.some_bind, hpos, if_false]
    · rw [hc]; simp only [newCentroid, hpos, if_false]

theorem updateCenters_spec (M : Metric) (s : State) (hu : Updatable M s) :
    ∃ s', updateCenters M s = some s' ∧ CenterInv M s s.K_ s' := by
  have h := forLoop_inv (centerBody M) (fun j t => CenterInv M s j t) s.K_ 0 s
    ⟨rfl, rfl, rfl, fun k hk => absurd hk (Nat.not_lt_zero k), fun k _ => ⟨rfl, rfl⟩⟩
    (fun j t _ hj hP => centerBody_step M s t j hu (by omega) hP)
  simpa [updateCenters] using h

/-- C7: with `(mean_k, n_k)` the representative and member count that
`computeCenter` reports for cluster `k` under the current labels,
`updateCenters` returns and afterwards every cluster `k < K` has the centroid
`(old_k*gamma + mean_k*n_k)/(gamma + n_k)`, `gamma = 1/(1/weight[k] + age[k]*tau)`,
when `n_k > 0` and `k < Kprev`; the centroid `mean_k` when `n_k > 0` and
`k >= Kprev`; and its old centroid when `n_k = 0`.  The right-hand sides only
mention cluster `k` of the state before the call. -/
theorem updateCenters_post (M : Metric) (s : State) (hu : Updatable M s) :
    ∃ s', updateCenters M s = some s' ∧
      ∀ k c, k < s.K_ → s.ps_.cols[k]? = some c →
        (0 < (M.computeCenter s.spx_ s.z_ k).2 → (k : ℚ) < s.Kprev_ →
          ∀ w a, s.ws_[k]? = some w → s.ts_[k]? = some a →
            s'.ps_.cols[k]? = some (Vec.sdiv
              (Vec.add (Vec.smul c (1 / (1 / w + a * s.tau_)))
                (Vec.smul (M.computeCenter s.spx_ s.z_ k).1
                  ((M.computeCenter s.spx_ s.z_ k).2 : ℚ)))
              (1 / (1 / w + a * s.tau_) + ((M.computeCenter s.spx_ s.z_ k).2 : ℚ)))) ∧
        (0 < (M.computeCenter s.spx_ s.z_ k).2 → ¬ (k : ℚ) < s.Kprev_ →
          s'.ps_.cols[k]? = some (M.computeCenter s.spx_ s.z_ k).1) ∧
        ((M.computeCenter s.spx_ s.z_ k).2 = 0 → s'.ps_.cols[k]? = some c) := by
  obtain ⟨s', hrun, _, _, _, hdone, _⟩ := updateCenters_spec M s hu
  refine ⟨s', hrun, ?_⟩
  intro k c hk hc
  have hcD := getD_of_getElem? _ _ [] _ hc
  have hcol := (hdone k hk).1
  refine ⟨?_, ?_, ?_⟩
  · intro hpos hprev w a hw ha
    have hwD := getD_of_getElem? _ _ 0 _ hw
    have haD := getD_of_getElem? _ _ 0 _ ha
    rw [hcol]
    simp only [newCentroid, hpos, hprev, if_true, hcD, hwD, haD]
  · intro hpos hprev
    rw [hcol]
    simp only [newCentroid, hpos, hprev, if_true, if_false]
  · intro hz
    rw [hcol]
    simp only [newCentroid, hz, lt_irrefl, if_false, hcD]

theorem sampleState_updatable : Updatable Euclidean sampleState where
  Ns_len := by decide
  ps_len := by decide
  fused_entry := by
    intro k hk _ _
    have hk2 : k < 2 := hk
    exact ⟨hk2, hk2⟩

theorem updateCenters_post_witness :
    ∃ s', updateCenters Euclidean sampleState = some s' ∧
      ∀ k c, k < sampleState.K_ → sampleState.ps_.cols[k]? = some c →
        (0 < (Euclidean.computeCenter sampleState.spx_ sampleState.z_ k).2 →
          (k : ℚ) < sampleState.Kprev_ →
          ∀ w a, sampleState.ws_[k]? = some w → sampleState.ts_[k]? = some a →
            s'.ps_.cols[k]? = some (Vec.sdiv
              (Vec.add (Vec.smul c (1 / (1 / w + a * sampleState.tau_)))
                (Vec.smul (Euclidean.computeCenter sampleState.spx_ sampleState.z_ k).1
                  ((Euclidean.computeCenter sampleState.spx_ sampleState.z_ k).2 : ℚ)))
              (1 / (1 / w + a * sampleState.tau_) +
                ((Euclidean.computeCenter sampleState.spx_ sampleState.z_ k).2 : ℚ)))) ∧
        (0 < (Euclidean.computeCenter sampleState.spx_ sampleState.z_ k).2 →
          ¬ (k : ℚ) < sampleState.Kprev_ →
          s'.ps_.cols[k]? = some (Euclidean.computeCenter sampleState.spx_ sampleState.z_ k).1) ∧
        ((Euclidean.computeCenter sampleState.spx_ sampleState.z_ k).2 = 0 →
          s'.ps_.cols[k]? = some c) :=
  updateCenters_post Euclidean sampleState sampleState_updatable

/-! ## The fusion coefficient -/

theorem zipWith_zipWith_self {α β : Type} (f g : α → β → α) :
    ∀ (c : List α) (x : List β),
      List.zipWith g (List.zipWith f c x) x = List.zipWith (fun a b => g (f a b) b) c x := by
  intro c
  induction c with
  | nil => intro x; simp
  | cons a c ih =>
    intro x
    cases x with
    | nil => simp
    | cons b x => simp [ih]

theorem fusePoint_eq_zipWith (g : ℚ) (c x : Vec) :
    fusePoint g c x = List.zipWith (fun ci xi => (ci * g + xi) / (g + 1)) c x := by
  simp [fusePoint, Vec.smul, Vec.add, Vec.sdiv, List.zipWith_map_left, List.map_zipWith]

theorem gammaOf_pos (w a tau : ℚ) (hw : 0 < w) (ha : 0 ≤ a) (htau : 0 ≤ tau) :
    0 < gammaOf w a tau := by
  unfold gammaOf
  have h1 : 0 < 1 / w := one_div_pos.2 hw
  have h2 : 0 ≤ a * tau := mul_nonneg ha htau
  exact one_div_pos.2 (by linarith)

/-- C5: with `gamma = 1/(1/w + a*tau)`, `w > 0`, `a >= 0`, `tau >= 0` and
`t = 1/(gamma + 1)`: `0 < t < 1`, the fusion `(c*gamma + x)/(gamma + 1)` equals
`c + t*(x - c)` in every coordinate, fusing the same point a second time gives
`c + (1 - (1 - t)^2)*(x - c)` with `0 < 1 - (1 - t)^2 < 1`, and so in every
coordinate where `c` and `x` differ the result lies strictly between them
after one and after two fusions. -/
theorem fusePoint_between (w a tau : ℚ) (c x : Vec) (hw : 0 < w) (ha : 0 ≤ a)
    (htau : 0 ≤ tau) :
    0 < 1 / (gammaOf w a tau + 1) ∧ 1 / (gammaOf w a tau + 1) < 1 ∧
    fusePoint (gammaOf w a tau) c x =
      List.zipWith (fun ci xi => ci + 1 / (gammaOf w a tau + 1) * (xi - ci)) c x ∧
    fusePoint (gammaOf w a tau) (fusePoint (gammaOf w a tau) c x) x =
      List.zipWith
        (fun ci xi => ci + (1 - (1 - 1 / (gammaOf w a tau + 1)) ^ 2) * (xi - ci)) c x ∧
    0 < 1 - (1 - 1 / (gammaOf w a tau + 1)) ^ 2 ∧
    1 - (1 - 1 / (gammaOf w a tau + 1)) ^ 2 < 1 ∧
    (∀ ci xi : ℚ, ci ≠ xi →
      (min ci xi < ci + 1 / (gammaOf w a tau + 1) * (xi - ci) ∧
        ci + 1 / (gammaOf w a tau + 1) * (xi - ci) < max ci xi) ∧
      (min ci xi < ci + (1 - (1 - 1 / (gammaOf w a tau + 1)) ^ 2) * (xi - ci) ∧
        ci + (1 - (1 - 1 / (gammaOf w a tau + 1)) ^ 2) * (xi - ci) < max ci xi)) := by
  have hg := gammaOf_pos w a tau hw ha htau
  generalize gammaOf w a tau = g at hg ⊢
  have hg1 : 0 < g + 1 := by linarith
  have hne : g + 1 ≠ 0 := ne_of_gt hg1
  have ht0 : 0 < 1 / (g + 1) := one_div_pos.2 hg1
  have ht1 : 1 / (g + 1) < 1 := by
    rw [div_lt_one hg1]; linarith
  have hu0 : 0 < 1 - (1 - 1 / (g + 1)) ^ 2 := by nlinarith
  have hu1 : 1 - (1 - 1 / (g + 1)) ^ 2 < 1 := by
    have : 0 < (1 - 1 / (g + 1)) ^ 2 := by
      apply pow_pos; linarith
    linarith
  have hbetween : ∀ (u ci xi : ℚ), 0 < u → u < 1 → ci ≠ xi →
      min ci xi < ci + u * (xi - ci) ∧ ci + u * (xi - ci) < max ci xi := by
    intro u ci xi hu0 hu1 hcx
    rcases lt_or_gt_of_ne hcx with h | h
    · rw [min_eq_left (le_of_lt h), max_eq_right (le_of_lt h)]
      constructor <;> nlinarith
    · rw [min_eq_right (le_of_lt h), max_eq_left (le_of_lt h)]
      constructor <;> nlinarith
  refine ⟨ht0, ht1, ?_, ?_, hu0, hu1, ?_⟩
  · rw [fusePoint_eq_zipWith]
    congr 1
    funext ci xi
    field_simp
    ring
  · rw [fusePoint_eq_zipWith, fusePoint_eq_zipWith, zipWith_zipWith_self]
    congr 1
    funext ci xi
    field_simp
    ring
  · intro ci xi hcx
    exact ⟨hbetween _ ci xi ht0 ht1 hcx, hbetween _ ci xi hu0 hu1 hcx⟩

theorem fusePoint_between_witness :
    0 < 1 / (gammaOf 1 1 1 + 1) ∧ 1 / (gammaOf 1 1 1 + 1) < 1 ∧
    fusePoint (gammaOf 1 1 1) [0, 0] [3, 6] =
      List.zipWith (fun ci xi => ci + 1 / (gammaOf 1 1 1 + 1) * (xi - ci)) [0, 0] [3, 6] ∧
    fusePoint (gammaOf 1 1 1) (fusePoint (gammaOf 1 1 1) [0, 0] [3, 6]) [3, 6] =
      List.zipWith
        (fun ci xi => ci + (1 - (1 - 1 / (gammaOf 1 1 1 + 1)) ^ 2) * (xi - ci)) [0, 0] [3, 6] ∧
    0 < 1 - (1 - 1 / (gammaOf 1 1 1 + 1)) ^ 2 ∧
    1 - (1 - 1 / (gammaOf 1 1 1 + 1)) ^ 2 < 1 ∧
    (∀ ci xi : ℚ, ci ≠ xi →
      (min ci xi < ci + 1 / (gammaOf 1 1 1 + 1) * (xi - ci) ∧
        ci + 1 / (gammaOf 1 1 1 + 1) * (xi - ci) < max ci xi) ∧
      (min ci xi < ci + (1 - (1 - 1 / (gammaOf 1 1 1 + 1)) ^ 2) * (xi - ci) ∧
        ci + (1 - (1 - 1 / (gammaOf 1 1 1 + 1)) ^ 2) * (xi - ci) < max ci xi)) :=
  fusePoint_between 1 1 1 [0, 0] [3, 6] (by norm_num) (by norm_num) (by norm_num)

theorem shift_lt_of_lt (s1 s2 : ℚ) (h1 : 0 < s1) (h12 : s1 < s2) :
    1 / (1 / s1 + 1) < 1 / (1 / s2 + 1) := by
  have h2 : 0 < s2 := lt_trans h1 h12
  have hinv : 1 / s2 < 1 / s1 := one_div_lt_one_div_of_lt h1 h12
  have hp : 0 < 1 / s2 + 1 := by have := one_div_pos.2 h2; linarith
  exact one_div_lt_one_div_of_lt hp (by linarith)

/-- C6: for a fixed weight `w > 0`, the fraction `1/(gamma + 1)` by which the
reactivation fusion moves the centroid towards the point, with
`gamma = 1/(1/w + a*tau)`, is strictly increasing in the age `a >= 0` for every
fixed `tau > 0` and strictly increasing in `tau >= 0` for every fixed age
`a > 0`; and a smaller `gamma >= 0` always gives a larger fraction. -/
theorem shift_strictly_increasing (w : ℚ) (hw : 0 < w) :
    (∀ tau a1 a2 : ℚ, 0 < tau → 0 ≤ a1 → a1 < a2 →
      1 / (gammaOf w a1 tau + 1) < 1 / (gammaOf w a2 tau + 1)) ∧
    (∀ a tau1 tau2 : ℚ, 0 < a → 0 ≤ tau1 → tau1 < tau2 →
      1 / (gammaOf w a tau1 + 1) < 1 / (gammaOf w a tau2 + 1)) ∧
    (∀ g1 g2 : ℚ, 0 ≤ g1 → g1 < g2 → 1 / (g2 + 1) < 1 / (g1 + 1)) := by
  have hiw : 0 < 1 / w := one_div_pos.2 hw
  refine ⟨?_, ?_, ?_⟩
  · intro tau a1 a2 htau ha1 ha12
    unfold gammaOf
    apply shift_lt_of_lt
    · have := mul_nonneg ha1 (le_of_lt htau); linarith
    · have := mul_lt_mul_of_pos_right ha12 htau; linarith
  · intro a tau1 tau2 ha ht1 ht12
    unfold gammaOf
    apply shift_lt_of_lt
    · have := mul_nonneg (le_of_lt ha) ht1; linarith
    · have := mul_lt_mul_of_pos_left ht12 ha; linarith
  · intro g1 g2 hg1 hg12
    exact one_div_lt_one_div_of_lt (by linarith) (by linarith)

theorem shift_strictly_increasing_witness :
    (∀ tau a1 a2 : ℚ, 0 < tau → 0 ≤ a1 → a1 < a2 →
      1 / (gammaOf 2 a1 tau + 1) < 1 / (gammaOf 2 a2 tau + 1)) ∧
    (∀ a tau1 tau2 : ℚ, 0 < a → 0 ≤ tau1 → tau1 < tau2 →
      1 / (gammaOf 2 a tau1 + 1) < 1 / (gammaOf 2 a tau2 + 1)) ∧
    (∀ g1 g2 : ℚ, 0 ≤ g1 → g1 < g2 → 1 / (g2 + 1) < 1 / (g1 + 1)) :=
  shift_strictly_increasing 2 (by norm_num)

/-! ## The data swap `nextTimeStep` -/

/-- C10: `nextTimeStep` fails exactly when the number of rows of the new batch
differs from `D`, and the state in which it fails is the state it was called
in: nothing has been written before the check. -/
theorem nextTimeStep_fails_iff (s : State) (spx : Mat) :
    ((∃ e, nextTimeStep s spx = Outcome.aborted e) ↔ spx.rows ≠ s.D_) ∧
    (∀ e, nextTimeStep s spx = Outcome.aborted e → e = s) := by
  unfold nextTimeStep
  by_cases h : s.D_ = spx.rows
  · simp [h]
  · have h' : spx.rows ≠ s.D_ := fun e => h e.symm
    simp only [h, if_false, Outcome.aborted.injEq, exists_eq', ne_eq, h', not_false_eq_true,
      true_iff, true_and]
    intro e he; exact he.symm

/-! ## Counter bookkeeping of `updateLabels` -/

theorem forLoop_inv_of_some {σ : Type} (body : σ → Nat → Option σ) (P : Nat → σ → Prop) :
    ∀ (n k : Nat) (s s' : σ), forLoop body n k s = some s' → P k s →
      (∀ j t t', k ≤ j → j < k + n → body t j = some t' → P j t → P (j + 1) t') →
      P (k + n) s' := by
  intro n
  induction n with
  | zero =>
    intro k s s' h h0 _
    simp only [forLoop, Option.some.injEq] at h
    subst h; simpa using h0
  | succ n ih =>
    intro k s s' h h0 hstep
    simp only [forLoop, Option.bind_eq_some] at h
    obtain ⟨t, ht, hrest⟩ := h
    have hP := hstep k s t (le_refl k) (by omega) ht h0
    have := ih (k + 1) t s' hrest hP (fun j u u' hj hlt hu hPu =>
      hstep j u u' (by omega) (by omega) hu hPu)
    have e : k + (n + 1) = k + 1 + n := by omega
    rw [e]; exact this

theorem sum_set_of_getElem? (l : List Int) (k : Nat) (v a : Int) (h : l[k]? = some v) :
    (l.set k a).sum = l.sum - v + a := by
  induction l generalizing k with
  | nil => simp at h
  | cons b l ih =>
    cases k with
    | zero =>
      simp only [List.getElem?_cons_zero, Option.some.injEq] at h
      subst h
      simp only [List.set_cons_zero, List.sum_cons]; omega
    | succ k =>
      simp only [List.getElem?_cons_succ] at h
      simp only [List.set_cons_succ, List.sum_cons, ih k h]; omega

theorem spawnCluster_counts (s s1 : State) (i : Nat) (h : spawnCluster s i s.K_ = some s1)
    (hlen : s.Ns_.length = s.K_) :
    s1.Ns_.sum = s.Ns_.sum + 1 ∧ s1.Ns_.length = s1.K_ ∧ s1.K_ = s.K_ + 1 ∧ s1.z_ = s.z_ ∧
      s1.N_ = s.N_ := by
  unfold spawnCluster at h
  simp only [Option.bind_eq_some] at h
  obtain ⟨x, _, h⟩ := h
  by_cases hps : s.ps_.cols.length = s.K_
  · simp only [hps, if_true, setAt, conservativeResize_length, Nat.lt_succ_self,
      Option.some_bind, Option.some.injEq] at h
    have hres : conservativeResize s.Ns_ (s.K_ + 1) = s.Ns_ ++ [0] := by
      unfold conservativeResize
      rw [List.take_of_length_le (by omega), hlen]
      simp
    have hset : (s.Ns_ ++ [(0 : Int)]).set s.K_ 1 = s.Ns_ ++ [1] := by
      rw [← hlen]; simp
    rw [hres, hset] at h
    subst h
    refine ⟨?_, ?_, rfl, rfl, rfl⟩
    · show (s.Ns_ ++ [(1 : Int)]).sum = _; simp
    · show (s.Ns_ ++ [(1 : Int)]).length = s.K_ + 1; simp [hlen]
  · simp [hps] at h

theorem joinCluster_counts (s s1 : State) (i z : Nat) (h : joinCluster s i z = some s1) :
    s1.Ns_.sum = s.Ns_.sum + 1 ∧ s1.Ns_.length = s.Ns_.length ∧ s1.K_ = s.K_ ∧
      s1.z_ = s.z_ ∧ s1.N_ = s.N_ := by
  unfold joinCluster at h
  simp only [Option.bind_eq_some] at h
  obtain ⟨n, hn, t, ht, m, hm, h⟩ := h
  have hframe : t.Ns_ = s.Ns_ ∧ t.K_ = s.K_ ∧ t.z_ = s.z_ ∧ t.N_ = s.N_ := by
    by_cases h0 : n = 0
    · simp only [h0, if_true, Option.bind_eq_some] at ht
      obtain ⟨w, _, a, _, c, _, x, _, ht⟩ := ht
      simp only [Option.some.injEq] at ht
      rw [← ht]; exact ⟨rfl, rfl, rfl, rfl⟩
    · simp only [h0, if_false, Option.some.injEq] at ht
      rw [← ht]; exact ⟨rfl, rfl, rfl, rfl⟩
  obtain ⟨hN, hK, hz, hNN⟩ := hframe
  simp only [Option.some.injEq] at h
  subst h
  rw [hN] at hm
  refine ⟨?_, ?_, hK, hz, hNN⟩
  · show (t.Ns_.set z (m + 1)).sum = _
    rw [hN, sum_set_of_getElem? _ _ m _ hm]; omega
  · show (t.Ns_.set z (m + 1)).length = _
    rw [hN]; simp

theorem relabel_counts (s s1 : State) (i z zo : Nat) (h : relabel s i z = some s1)
    (hzo : s.z_[i]? = some zo) :
    s1.Ns_.sum = s.Ns_.sum - (if zo = UNASSIGNED then 0 else 1) ∧
      s1.Ns_.length = s.Ns_.length ∧ s1.K_ = s.K_ ∧ s1.z_ = s.z_.set i z ∧
      s1.N_ = s.N_ := by
  unfold relabel at h
  rw [hzo] at h
  simp only [Option.some_bind, Option.bind_eq_some] at h
  obtain ⟨t, ht, h⟩ := h
  simp only [Option.some.injEq] at h
  subst h
  by_cases hun : zo = UNASSIGNED
  · simp only [hun, ne_eq, not_true_eq_false, if_false, Option.some.injEq] at ht
    subst ht
    refine ⟨?_, rfl, rfl, rfl, rfl⟩
    rw [if_pos hun]; show s.Ns_.sum = _; omega
  · simp only [ne_eq, hun, not_false_eq_true, if_true, Option.bind_eq_some,
      Option.some.injEq] at ht
    obtain ⟨m, hm, ht⟩ := ht
    subst ht
    refine ⟨?_, ?_, rfl, rfl, rfl⟩
    · show (s.Ns_.set zo (m - 1)).sum = _
      rw [sum_set_of_getElem? _ _ m _ hm, if_neg hun]; omega
    · show (s.Ns_.set zo (m - 1)).length = _; simp

theorem labelPoint_counts (M : Metric) (s s' : State) (i zo : Nat)
    (h : labelPoint M s i = some s') (hlen : s.Ns_.length = s.K_)
    (hzo : s.z_[i]? = some zo) :
    s'.Ns_.sum = s.Ns_.sum + 1 - (if zo = UNASSIGNED then 0 else 1) ∧
      s'.Ns_.length = s'.K_ ∧ s.K_ ≤ s'.K_ ∧ s'.N_ = s.N_ ∧ ∃ z, s'.z_ = s.z_.set i z := by
  unfold labelPoint at h
  simp only [Option.bind_eq_some] at h
  obtain ⟨r, _, s1, h1, h2⟩ := h
  by_cases hK : r.1 = s.K_
  · simp only [hK, if_true] at h1 h2
    obtain ⟨a, b, c, d, e⟩ := spawnCluster_counts _ s1 i h1 hlen
    obtain ⟨a', b', c', d', e'⟩ := relabel_counts s1 s' i s.K_ zo h2 (by rw [d]; exact hzo)
    refine ⟨?_, ?_, ?_, ?_, s.K_, ?_⟩
    · rw [a', a]
    · rw [b', c', b]
    · rw [c', c]; exact Nat.le_succ _
    · rw [e', e]
    · rw [d', d]
  · simp only [hK, if_false] at h1
    obtain ⟨a, b, c, d, e⟩ := joinCluster_counts _ s1 i r.1 h1
    obtain ⟨a', b', c', d', e'⟩ := relabel_counts s1 s' i r.1 zo h2 (by rw [d]; exact hzo)
    refine ⟨?_, ?_, ?_, ?_, r.1, ?_⟩
    · rw [a', a]
    · rw [b', c', b, c]; exact hlen
    · rw [c', c]
    · rw [e', e]
    · rw [d', d]

theorem labelPoint_reads_label (M : Metric) (s s' : State) (i : Nat)
    (h : labelPoint M s i = some s') : ∃ zo, s.z_[i]? = some zo := by
  unfold labelPoint at h
  simp only [Option.bind_eq_some] at h
  obtain ⟨r, _, s1, h1, h2⟩ := h
  have hz : s1.z_ = s.z_ := by
    by_cases hK : r.1 = s.K_
    · simp only [hK, if_true] at h1
      unfold spawnCluster at h1
      simp only [Option.bind_eq_some] at h1
      obtain ⟨x, _, h1⟩ := h1
      by_cases hps : s.ps_.cols.length = s.K_
      · simp only [hps, if_true, Option.bind_eq_some, Option.some.injEq] at h1
        obtain ⟨Ns, _, h1⟩ := h1
        subst h1; rfl
      · simp [hps] at h1
    · simp only [hK, if_false] at h1
      exact (joinCluster_counts _ s1 i r.1 h1).2.2.2.1
  unfold relabel at h2
  simp only [Option.bind_eq_some] at h2
  obtain ⟨zo, hzo, _⟩ := h2
  exact ⟨zo, by rw [← hz]; exact hzo⟩

/-- The number of counted labels only changes through points that were
unassigned: a pass of `updateLabels` adds to the sum of the counters the number
of points among the first `N` whose previous label was `UNASSIGNED`. -/
theorem updateLabels_counts_sum (M : Metric) (s s' : State) (hlen : s.Ns_.length = s.K_)
    (h : updateLabels M s = some s') :
    s'.Ns_.sum = s.Ns_.sum + ((s.z_.take s.N_).count UNASSIGNED : Int) ∧
      s'.Ns_.length = s'.K_ ∧ s.K_ ≤ s'.K_ ∧ s'.N_ = s.N_ := by
  have key := forLoop_inv_of_some (labelPoint M)
    (fun j t => t.Ns_.length = t.K_ ∧ s.K_ ≤ t.K_ ∧ t.N_ = s.N_ ∧
      (∀ i, j ≤ i → t.z_[i]? = s.z_[i]?) ∧
      t.Ns_.sum = s.Ns_.sum + ((s.z_.take j).count UNASSIGNED : Int))
    s.N_ 0 { s with prevCost_ := s.cost_, cost_ := 0 } s' h
    ⟨hlen, le_refl _, rfl, fun i _ => rfl, by simp⟩
    (by
      intro j t t' _ _ hbody ⟨hl, hK, hN, hz, hsum⟩
      obtain ⟨zo, hzo⟩ := labelPoint_reads_label M t t' j hbody
      obtain ⟨a, b, c, e, z, d⟩ := labelPoint_counts M t t' j zo hbody hl hzo
      have hzs : s.z_[j]? = some zo := by rw [← hz j (le_refl j)]; exact hzo
      refine ⟨b, le_trans hK c, by rw [e, hN], ?_, ?_⟩
      · intro i hi
        rw [d, List.getElem?_set_ne (by omega)]
        exact hz i (by omega)
      · have hc : ((List.count UNASSIGNED (Option.toList (some zo)) : Nat) : Int) =
            if zo = UNASSIGNED then 1 else 0 := by
          by_cases hun : zo = UNASSIGNED
          · simp [hun]
          · have hun2 : ¬ UNASSIGNED = zo := fun e => hun e.symm
            simp [hun, List.count_singleton, hun2]
        rw [a, hsum, List.take_succ, hzs, List.count_append, Nat.cast_add, hc]
        by_cases hun : zo = UNASSIGNED
        · rw [if_pos hun, if_pos hun]; omega
        · rw [if_neg hun, if_neg hun]; omega)
  simp only [Nat.zero_add] at key
  exact ⟨key.2.2.2.2, key.1, key.2.1, key.2.2.1⟩

/-- After `nextTimeStep` no label is `UNASSIGNED`, so the first pass of
`updateLabels` on the new batch returns with the sum of the counters it
started with, whatever the size of the new batch. -/
theorem firstPassAfter_counts_sum (M : Metric) (s s' : State) (spx : Mat)
    (hlen : s.Ns_.length = s.K_) (h : firstPassAfter M s spx = some s') :
    s'.Ns_.sum = s.Ns_.sum ∧ s'.N_ = spx.cols.length := by
  unfold firstPassAfter nextTimeStep at h
  by_cases hD : s.D_ = spx.rows
  · simp only [hD, if_true] at h
    have h1 := (fun hl => updateLabels_counts_sum M _ s' hl h) hlen
    refine ⟨?_, h1.2.2.2⟩
    rw [h1.1]
    simp [List.count_replicate, UNASSIGNED]
  · simp [hD] at h

/-- On a freshly constructed object every point is unassigned and there is no
counter, so the first pass of `updateLabels` returns with counters that sum to
the number of points. -/
theorem updateLabels_construct_counts_sum (M : Metric) (spx : Mat) (lambda Q tau cost0 : ℚ)
    (s' : State) (h : updateLabels M (construct spx lambda Q tau cost0) = some s') :
    s'.Ns_.sum = (spx.cols.length : Int) ∧ s'.N_ = spx.cols.length := by
  have h1 := updateLabels_counts_sum M _ s' rfl h
  refine ⟨?_, h1.2.2.2⟩
  rw [h1.1]
  simp [construct, List.count_replicate]

/-! ## Assignment coverage -/

/-- C1 (failing run): the driver clusters the one-point batch `oneBatch`
(`lambda = 4`), commits, swaps in the two-point batch `twoBatch` and runs
`updateLabels`.  Both points join cluster 0, yet `updateLabels` returns with
`N = 2` and the single counter equal to 1: `nextTimeStep` seeds every label
with `0` and keeps the counters of the previous batch, so each point is
counted once and cluster 0 is discounted once. -/
theorem updateLabels_after_nextTimeStep_counts :
    ((passAndCommit Euclidean (construct oneBatch 4 1 1 0)).bind
        fun s => firstPassAfter Euclidean s twoBatch).map
      (fun s => (s.N_, s.K_, s.z_, s.Ns_, s.Ns_.sum)) = some (2, 1, [0, 0], [1], 1) := by
  simp [passAndCommit, firstPassAfter, oneBatch, twoBatch, construct, updateLabels, forLoop,
    labelPoint, indOfClosestCluster, closestBody, spawnCluster, joinCluster, relabel, setAt,
    conservativeResize, UNASSIGNED, updateCenters, centerBody, Euclidean, meanCenter, members,
    sqDist, updateState, stateBody, nextTimeStep, Vec.add, Vec.sdiv, Vec.smul, dormantSim,
    gammaOf, fusePoint, fuseMean]

/-! ## The effect of `nextTimeStep` -/

/-- C11: for a new batch with `D` rows and `N'` columns, `nextTimeStep`
succeeds; afterwards the batch is the new batch, `N = N'`, the label vector has
exactly `N'` entries, all equal to 0 and none `UNASSIGNED`, and `K`, `D`, the
centroids, the counts, the ages, the weights, `Kprev`, `prevCentroids`, `cost`
and `prevCost` (and `lambda`, `Q`, `tau`) are unchanged. -/
theorem nextTimeStep_effect (s : State) (spx : Mat) (hD : spx.rows = s.D_) :
    ∃ s', nextTimeStep s spx = Outcome.done s' ∧
      s'.spx_ = spx ∧ s'.N_ = spx.cols.length ∧ s'.z_.length = spx.cols.length ∧
      (∀ i, i < spx.cols.length → s'.z_[i]? = some 0) ∧
      (∀ (i v : Nat), s'.z_[i]? = some v → v = 0 ∧ v ≠ UNASSIGNED) ∧
      s'.K_ = s.K_ ∧ s'.D_ = s.D_ ∧ s'.ps_ = s.ps_ ∧ s'.Ns_ = s.Ns_ ∧ s'.ts_ = s.ts_ ∧
      s'.ws_ = s.ws_ ∧ s'.Kprev_ = s.Kprev_ ∧ s'.psPrev_ = s.psPrev_ ∧
      s'.cost_ = s.cost_ ∧ s'.prevCost_ = s.prevCost_ ∧
      s'.lambda_ = s.lambda_ ∧ s'.Q_ = s.Q_ ∧ s'.tau_ = s.tau_ := by
  refine ⟨{ s with spx_ := spx, N_ := spx.cols.length,
                   z_ := List.replicate spx.cols.length 0 }, ?_, rfl, rfl, ?_, ?_, ?_,
    rfl, rfl, rfl, rfl, rfl, rfl, rfl, rfl, rfl, rfl, rfl, rfl, rfl⟩
  · unfold nextTimeStep
    rw [if_pos hD.symm]
  · simp
  · intro i hi
    simp [hi]
  · intro i v hv
    have hv' : (List.replicate spx.cols.length 0)[i]? = some v := hv
    rw [List.getElem?_replicate] at hv'
    by_cases hi : i < spx.cols.length
    · simp only [hi, if_true, Option.some.injEq] at hv'
      subst hv'
      exact ⟨rfl, by decide⟩
    · simp [hi] at hv'

theorem nextTimeStep_effect_witness :
    ∃ s', nextTimeStep sampleState pairBatch = Outcome.done s' ∧
      s'.spx_ = pairBatch ∧ s'.N_ = pairBatch.cols.length ∧
      s'.z_.length = pairBatch.cols.length ∧
      (∀ i, i < pairBatch.cols.length → s'.z_[i]? = some 0) ∧
      (∀ (i v : Nat), s'.z_[i]? = some v → v = 0 ∧ v ≠ UNASSIGNED) ∧
      s'.K_ = sampleState.K_ ∧ s'.D_ = sampleState.D_ ∧ s'.ps_ = sampleState.ps_ ∧
      s'.Ns_ = sampleState.Ns_ ∧ s'.ts_ = sampleState.ts_ ∧
      s'.ws_ = sampleState.ws_ ∧ s'.Kprev_ = sampleState.Kprev_ ∧
      s'.psPrev_ = sampleState.psPrev_ ∧
      s'.cost_ = sampleState.cost_ ∧ s'.prevCost_ = sampleState.prevCost_ ∧
      s'.lambda_ = sampleState.lambda_ ∧ s'.Q_ = sampleState.Q_ ∧
      s'.tau_ = sampleState.tau_ :=
  nextTimeStep_effect sampleState pairBatch (by decide)

/-! ## The shape of the dormant effective distance -/

/-- C17: for `d >= 0`, `w > 0`, `a >= 0`, `tau >= 0`, `Q >= 0` the scaled term
`d/(tau*a + 1 + 1/w)` of the dormant effective distance is at most `d`
(strictly less when `d > 0`), does not increase when the age grows, does not
decrease when the weight grows; the penalty `Q*a` does not decrease when the
age grows; and the whole dormant effective distance is
`d*gamma/(gamma + 1) + Q*a` with the fusion coefficient
`gamma = 1/(1/w + a*tau)`. -/
theorem dormantSim_shape (d w a tau Q : ℚ) (hd : 0 ≤ d) (hw : 0 < w) (ha : 0 ≤ a)
    (htau : 0 ≤ tau) (hQ : 0 ≤ Q) :
    d / (tau * a + 1 + 1 / w) ≤ d ∧
    (0 < d → d / (tau * a + 1 + 1 / w) < d) ∧
    (∀ a2, a ≤ a2 → d / (tau * a2 + 1 + 1 / w) ≤ d / (tau * a + 1 + 1 / w)) ∧
    (∀ w2, w ≤ w2 → d / (tau * a + 1 + 1 / w) ≤ d / (tau * a + 1 + 1 / w2)) ∧
    (∀ a2, a ≤ a2 → Q * a ≤ Q * a2) ∧
    dormantSim d tau a w Q = d / (tau * a + 1 + 1 / w) + Q * a ∧
    dormantSim d tau a w Q =
      d * gammaOf w a tau / (gammaOf w a tau + 1) + Q * a := by
  have hiw : 0 < 1 / w := one_div_pos.2 hw
  have hta : 0 ≤ tau * a := mul_nonneg htau ha
  have hden : 1 < tau * a + 1 + 1 / w := by linarith
  have hden0 : 0 < tau * a + 1 + 1 / w := by linarith
  refine ⟨?_, ?_, ?_, ?_, ?_, rfl, ?_⟩
  · exact div_le_self hd (le_of_lt hden)
  · intro hdpos
    exact div_lt_self hdpos hden
  · intro a2 ha2
    have : tau * a ≤ tau * a2 := mul_le_mul_of_nonneg_left ha2 htau
    exact div_le_div_of_nonneg_left hd hden0 (by linarith)
  · intro w2 hw2
    have hw2pos : 0 < w2 := lt_of_lt_of_le hw hw2
    have hinv : 1 / w2 ≤ 1 / w := one_div_le_one_div_of_le hw hw2
    have hiw2 : 0 < 1 / w2 := one_div_pos.2 hw2pos
    exact div_le_div_of_nonneg_left hd (by linarith) (by linarith)
  · intro a2 ha2
    exact mul_le_mul_of_nonneg_left ha2 hQ
  · unfold dormantSim gammaOf
    have hs : 0 < 1 / w + a * tau := by
      have := mul_nonneg ha htau; linarith
    have hs1 : (1 / w + a * tau) ≠ 0 := ne_of_gt hs
    have hwne : w ≠ 0 := ne_of_gt hw
    congr 1
    have hg : 0 < 1 / (1 / w + a * tau) := one_div_pos.2 hs
    rw [div_eq_div_iff (ne_of_gt hden0) (by linarith)]
    field_simp
    ring

theorem dormantSim_shape_witness :
    (4 : ℚ) / (1 * 1 + 1 + 1 / 2) ≤ 4 ∧
    ((0 : ℚ) < 4 → (4 : ℚ) / (1 * 1 + 1 + 1 / 2) < 4) ∧
    (∀ a2 : ℚ, 1 ≤ a2 → (4 : ℚ) / (1 * a2 + 1 + 1 / 2) ≤ 4 / (1 * 1 + 1 + 1 / 2)) ∧
    (∀ w2 : ℚ, 2 ≤ w2 → (4 : ℚ) / (1 * 1 + 1 + 1 / 2) ≤ 4 / (1 * 1 + 1 + 1 / w2)) ∧
    (∀ a2 : ℚ, 1 ≤ a2 → (3 : ℚ) * 1 ≤ 3 * a2) ∧
    dormantSim 4 1 1 2 3 = 4 / (1 * 1 + 1 + 1 / 2) + 3 * 1 ∧
    dormantSim 4 1 1 2 3 = 4 * gammaOf 2 1 1 / (gammaOf 2 1 1 + 1) + 3 * 1 :=
  dormantSim_shape 4 2 1 1 3 (by norm_num) (by norm_num) (by norm_num) (by norm_num)
    (by norm_num)

/-! ## The shape of one Assignment Step -/

theorem spawnCluster_shape (s s1 : State) (i z : Nat) (h : spawnCluster s i z = some s1) :
    ∃ x Ns, s1 = { s with ps_ := ⟨s.D_, s.ps_.cols ++ [x]⟩, K_ := s.K_ + 1, Ns_ := Ns } := by
  unfold spawnCluster at h
  simp only [Option.bind_eq_some] at h
  obtain ⟨x, _, h⟩ := h
  by_cases hps : s.ps_.cols.length = s.K_
  · simp only [hps, if_true, Option.bind_eq_some, Option.some.injEq] at h
    obtain ⟨Ns, _, h⟩ := h
    exact ⟨x, Ns, h.symm⟩
  · simp [hps] at h

theorem joinCluster_shape (s s1 : State) (i z : Nat) (h : joinCluster s i z = some s1) :
    ∃ cs Ns, s1 = { s with ps_ := { s.ps_ with cols := cs }, Ns_ := Ns } := by
  unfold joinCluster at h
  simp only [Option.bind_eq_some] at h
  obtain ⟨n, _, t, ht, m, _, h⟩ := h
  simp only [Option.some.injEq] at h
  by_cases h0 : n = 0
  · simp only [h0, if_true, Option.bind_eq_some] at ht
    obtain ⟨w, _, a, _, c, _, x, _, ht⟩ := ht
    simp only [Option.some.injEq] at ht
    subst ht
    exact ⟨_, _, h.symm⟩
  · simp only [h0, if_false, Option.some.injEq] at ht
    subst ht
    exact ⟨s.ps_.cols, _, h.symm⟩

theorem relabel_shape (s s1 : State) (i z : Nat) (h : relabel s i z = some s1) :
    ∃ Ns, s1 = { s with Ns_ := Ns, z_ := s.z_.set i z } := by
  unfold relabel at h
  simp only [Option.bind_eq_some] at h
  obtain ⟨zo, _, t, ht, h⟩ := h
  simp only [Option.some.injEq] at h
  by_cases hun : zo = UNASSIGNED
  · simp only [hun, ne_eq, not_true_eq_false, if_false, Option.some.injEq] at ht
    subst ht
    exact ⟨s.Ns_, h.symm⟩
  · simp only [ne_eq, hun, not_false_eq_true, if_true, Option.bind_eq_some,
      Option.some.injEq] at ht
    obtain ⟨m, _, ht⟩ := ht
    subst ht
    exact ⟨_, h.symm⟩

theorem labelPoint_shape (M : Metric) (s s' : State) (i : Nat)
    (h : labelPoint M s i = some s') :
    ∃ r ps Ns, indOfClosestCluster M s i = some r ∧
      s' = { s with
        cost_ := s.cost_ + r.2,
        K_ := s.K_ + (if r.1 = s.K_ then 1 else 0),
        ps_ := ps, Ns_ := Ns, z_ := s.z_.set i r.1 } := by
  unfold labelPoint at h
  simp only [Option.bind_eq_some] at h
  obtain ⟨r, hr, s1, h1, h2⟩ := h
  obtain ⟨Ns2, e2⟩ := relabel_shape s1 s' i r.1 h2
  by_cases hK : r.1 = s.K_
  · simp only [hK, if_true] at h1
    obtain ⟨x, Ns1, e1⟩ := spawnCluster_shape _ s1 i _ h1
    refine ⟨r, ⟨s.D_, s.ps_.cols ++ [x]⟩, Ns2, hr, ?_⟩
    rw [e2, e1, if_pos hK]
  · simp only [hK, if_false] at h1
    obtain ⟨cs, Ns1, e1⟩ := joinCluster_shape _ s1 i _ h1
    refine ⟨r, { s.ps_ with cols := cs }, Ns2, hr, ?_⟩
    rw [e2, e1, if_neg hK]
    rfl

theorem closestBody_cases (M : Metric) (s : State) (i : Nat) (acc acc' : Nat × ℚ) (k : Nat)
    (h : closestBody M s i acc k = some acc') :
    acc' = acc ∨ ∃ sim, acc' = (k, sim) ∧ M.closer sim acc.2 = true := by
  unfold closestBody at h
  simp only [Option.bind_eq_some] at h
  obtain ⟨c, _, x, _, n, _, sim, _, h⟩ := h
  by_cases hc : M.closer sim acc.2 = true
  · rw [if_pos hc] at h
    simp only [Option.some.injEq] at h
    exact Or.inr ⟨sim, h.symm, hc⟩
  · rw [if_neg hc] at h
    simp only [Option.some.injEq] at h
    exact Or.inl h.symm

theorem indOfClosestCluster_result (M : Metric) (s : State) (i : Nat) (r : Nat × ℚ)
    (h : indOfClosestCluster M s i = some r) :
    r.1 ≤ s.K_ ∧ (r.1 = s.K_ → r.2 = s.lambda_) ∧
      ((∀ a b, M.closer a b = true ↔ a < b) → r.2 ≤ s.lambda_) := by
  have key := forLoop_inv_of_some (closestBody M s i)
    (fun _ acc => ((acc.1 = s.K_ ∧ acc.2 = s.lambda_) ∨ acc.1 < s.K_) ∧
      ((∀ a b, M.closer a b = true ↔ a < b) → acc.2 ≤ s.lambda_))
    s.K_ 0 (s.K_, s.lambda_) r h
    ⟨Or.inl ⟨rfl, rfl⟩, fun _ => le_refl _⟩
    (by
      intro j acc acc' _ hj hbody ⟨h1, h2⟩
      rcases closestBody_cases M s i acc acc' j hbody with e | ⟨sim, e, hc⟩
      · rw [e]; exact ⟨h1, h2⟩
      · rw [e]
        refine ⟨Or.inr (by simpa using hj), ?_⟩
        intro hcl
        exact le_of_lt (lt_of_lt_of_le ((hcl _ _).1 hc) (h2 hcl)))
  obtain ⟨h1, h2⟩ := key
  refine ⟨?_, ?_, h2⟩
  · rcases h1 with ⟨a, _⟩ | a
    · exact le_of_eq a
    · exact le_of_lt a
  · intro hK
    rcases h1 with ⟨_, b⟩ | a
    · exact b
    · exact absurd hK (Nat.ne_of_lt a)

/-- The observations of a run of the loop and the state it returns. -/
theorem passTrace_spec (M : Metric) :
    ∀ (n i : Nat) (t t' : State), forLoop (labelPoint M) n i t = some t' →
      (passTrace M n i t).length = n ∧
      t'.K_ = t.K_ + spawnCount (passTrace M n i t) ∧
      t'.cost_ = t.cost_ + scoreSum (passTrace M n i t) ∧
      t'.prevCost_ = t.prevCost_ ∧ t'.lambda_ = t.lambda_ ∧
      (∀ e, e ∈ passTrace M n i t → e.2.1 = e.1 → e.2.2 = t.lambda_) ∧
      ((∀ a b, M.closer a b = true ↔ a < b) →
        ∀ e, e ∈ passTrace M n i t → e.2.2 ≤ t.lambda_) := by
  intro n
  induction n with
  | zero =>
    intro i t t' h
    simp only [forLoop, Option.some.injEq] at h
    subst h
    simp [passTrace, spawnCount, scoreSum]
  | succ n ih =>
    intro i t t' h
    simp only [forLoop, Option.bind_eq_some] at h
    obtain ⟨t1, h1, hrest⟩ := h
    obtain ⟨r, ps, Ns, hr, e1⟩ := labelPoint_shape M t t1 i h1
    obtain ⟨hlen, hK, hcost, hprev, hlam, hnew, hle⟩ := ih (i + 1) t1 t' hrest
    obtain ⟨_, rnew, rle⟩ := indOfClosestCluster_result M t i r hr
    have htr : passTrace M (n + 1) i t = (t.K_, r.1, r.2) :: passTrace M n (i + 1) t1 := by
      simp only [passTrace, hr, h1]
    have hK1 : t1.K_ = t.K_ + (if r.1 = t.K_ then 1 else 0) := by rw [e1]
    have hc1 : t1.cost_ = t.cost_ + r.2 := by rw [e1]
    have hp1 : t1.prevCost_ = t.prevCost_ := by rw [e1]
    have hl1 : t1.lambda_ = t.lambda_ := by rw [e1]
    rw [htr]
    refine ⟨?_, ?_, ?_, ?_, ?_, ?_, ?_⟩
    · simp [hlen]
    · rw [hK, hK1]
      by_cases hw : r.1 = t.K_
      · simp [spawnCount, hw]; omega
      · simp [spawnCount, hw]
    · rw [hcost, hc1]
      simp [scoreSum]; ring
    · rw [hprev, hp1]
    · rw [hlam, hl1]
    · intro e he hwin
      rcases List.mem_cons.1 he with rfl | he
      · exact rnew hwin
      · rw [← hl1]; exact hnew e he hwin
    · intro hcl e he
      rcases List.mem_cons.1 he with rfl | he
      · exact rle hcl
      · rw [← hl1]; exact hle hcl e he

theorem spawnCount_le_length (tr : List (Nat × Nat × ℚ)) : spawnCount tr ≤ tr.length := by
  unfold spawnCount
  exact List.length_filter_le _ _

/-! ## What the steps leave alone -/

theorem labelPoint_frame (M : Metric) (s s' : State) (i : Nat)
    (h : labelPoint M s i = some s') : forgetAssignment s' = forgetAssignment s := by
  obtain ⟨r, ps, Ns, _, e⟩ := labelPoint_shape M s s' i h
  rw [e]; rfl

theorem updateLabels_frame (M : Metric) (s s' : State) (h : updateLabels M s = some s') :
    forgetAssignment s' = forgetAssignment { s with prevCost_ := s.cost_ } := by
  have key := forLoop_inv_of_some (labelPoint M)
    (fun _ t => forgetAssignment t = forgetAssignment { s with prevCost_ := s.cost_ })
    s.N_ 0 { s with prevCost_ := s.cost_, cost_ := 0 } s' h rfl
    (fun j t t' _ _ hbody hP => (labelPoint_frame M t t' j hbody).trans hP)
  exact key

theorem centerBody_frame (M : Metric) (t t' : State) (k : Nat)
    (h : centerBody M t k = some t') : forgetCenters t' = forgetCenters t := by
  unfold centerBody at h
  simp only [Option.bind_eq_some] at h
  obtain ⟨Ns, _, h⟩ := h
  by_cases hpos : 0 < (M.computeCenter t.spx_ t.z_ k).2
  · rw [if_pos hpos] at h
    by_cases hprev : (k : ℚ) < t.Kprev_
    · rw [if_pos hprev] at h
      simp only [Option.bind_eq_some, Option.some.injEq] at h
      obtain ⟨w, _, a, _, c, _, h⟩ := h
      rw [← h]; rfl
    · rw [if_neg hprev] at h
      simp only [Option.bind_eq_some, Option.some.injEq] at h
      obtain ⟨cs, _, h⟩ := h
      rw [← h]; rfl
  · rw [if_neg hpos] at h
    simp only [Option.some.injEq] at h
    rw [← h]; rfl

theorem updateCenters_frame (M : Metric) (s s' : State) (h : updateCenters M s = some s') :
    forgetCenters s' = forgetCenters s := by
  have key := forLoop_inv_of_some (centerBody M)
    (fun _ t => forgetCenters t = forgetCenters s) s.K_ 0 s s' h rfl
    (fun j t t' _ _ hbody hP => (centerBody_frame M t t' j hbody).trans hP)
  exact key

theorem stateBody_frame (t t' : State) (k : Nat) (h : stateBody t k = some t') :
    forgetTemporal t' = forgetTemporal t := by
  unfold stateBody at h
  simp only [Option.bind_eq_some] at h
  obtain ⟨n, _, t1, h1, a, _, h⟩ := h
  simp only [Option.some.injEq] at h
  have e1 : forgetTemporal t1 = forgetTemporal t := by
    by_cases hc : k < t.ws_.length ∧ 0 < n
    · rw [if_pos hc] at h1
      simp only [Option.bind_eq_some, Option.some.injEq] at h1
      obtain ⟨w, _, b, _, ws, _, ts, _, h1⟩ := h1
      rw [← h1]; rfl
    · rw [if_neg hc] at h1
      by_cases hk : t.ws_.length ≤ k
      · rw [if_pos hk] at h1
        simp only [Option.some.injEq] at h1
        rw [← h1]; rfl
      · rw [if_neg hk] at h1
        simp only [Option.some.injEq] at h1
        rw [← h1]
  rw [← h]
  exact e1

theorem updateState_K (s s' : State) (h : updateState s = some s') : s'.K_ = s.K_ := by
  unfold updateState at h
  simp only [Option.bind_eq_some, Option.some.injEq] at h
  obtain ⟨t, ht, h⟩ := h
  have key := forLoop_inv_of_some stateBody
    (fun _ u => forgetTemporal u = forgetTemporal s) s.K_ 0 s t ht rfl
    (fun j u u' _ _ hbody hP => (stateBody_frame u u' j hbody).trans hP)
  have hK : t.K_ = s.K_ := by have := congrArg State.K_ key; exact this
  rw [← h]; exact hK

theorem nextTimeStep_K (s s' : State) (spx : Mat)
    (h : nextTimeStep s spx = Outcome.done s') : s'.K_ = s.K_ := by
  unfold nextTimeStep at h
  by_cases hD : s.D_ = spx.rows
  · rw [if_pos hD] at h
    simp only [Outcome.done.injEq] at h
    rw [← h]
  · rw [if_neg hD] at h
    exact absurd h (by simp)

theorem updateLabels_K (M : Metric) (s s' : State) (h : updateLabels M s = some s') :
    s'.K_ = s.K_ + spawnCount (updateTrace M s) ∧ (updateTrace M s).length = s.N_ := by
  obtain ⟨hlen, hK, _⟩ := passTrace_spec M s.N_ 0 _ s' h
  exact ⟨hK, hlen⟩

theorem driverStep_K (M : Metric) (a b : State) (h : DriverStep M a b) : a.K_ ≤ b.K_ := by
  cases h with
  | labels h => rw [(updateLabels_K M a b h).1]; exact Nat.le_add_right _ _
  | centers h =>
    have := congrArg State.K_ (updateCenters_frame M a b h)
    exact le_of_eq this.symm
  | commit h => exact le_of_eq (updateState_K a b h).symm
  | swap spx h => exact le_of_eq (nextTimeStep_K a b spx h).symm

/-- C12: `updateLabels` increases `K` by exactly the number of points of the
pass whose winner was the virtual new-cluster option, which is at most `N`;
`updateCenters`, `updateState` and `nextTimeStep` leave `K` unchanged; hence
`K` never decreases along any sequence of driver calls. -/
theorem K_never_decreases (M : Metric) (s : State) :
    (∀ s', updateLabels M s = some s' →
      s'.K_ = s.K_ + spawnCount (updateTrace M s) ∧ (updateTrace M s).length = s.N_ ∧
      spawnCount (updateTrace M s) ≤ s.N_ ∧ s.K_ ≤ s'.K_) ∧
    (∀ s', updateCenters M s = some s' → s'.K_ = s.K_) ∧
    (∀ s', updateState s = some s' → s'.K_ = s.K_) ∧
    (∀ spx s', nextTimeStep s spx = Outcome.done s' → s'.K_ = s.K_) ∧
    (∀ s', Relation.ReflTransGen (DriverStep M) s s' → s.K_ ≤ s'.K_) := by
  refine ⟨?_, ?_, ?_, ?_, ?_⟩
  · intro s' h
    obtain ⟨hK, hlen⟩ := updateLabels_K M s s' h
    refine ⟨hK, hlen, ?_, ?_⟩
    · rw [← hlen]; exact spawnCount_le_length _
    · rw [hK]; exact Nat.le_add_right _ _
  · intro s' h
    have := congrArg State.K_ (updateCenters_frame M s s' h)
    exact this
  · intro s' h
    exact updateState_K s s' h
  · intro spx s' h
    exact nextTimeStep_K s s' spx h
  · intro s' h
    induction h with
    | refl => exact le_refl _
    | tail _ hstep ih => exact le_trans ih (driverStep_K M _ _ hstep)

/-- C13: after `updateLabels`, `prevCost` is the cost before the call and
`cost` is the sum, over the `N` points in processing order, of the score that
`indOfClosestCluster` returned for the point in the registry left by the points
before it; a point whose winner is the new-cluster option contributes exactly
`lambda`; and when `closer(a,b)` is `a < b` every summand is at most `lambda`,
so `cost <= N*lambda`. -/
theorem updateLabels_cost (M : Metric) (s s' : State) (h : updateLabels M s = some s') :
    s'.prevCost_ = s.cost_ ∧ s'.cost_ = scoreSum (updateTrace M s) ∧
    (updateTrace M s).length = s.N_ ∧
    (∀ e, e ∈ updateTrace M s → e.2.1 = e.1 → e.2.2 = s.lambda_) ∧
    ((∀ a b, M.closer a b = true ↔ a < b) →
      (∀ e, e ∈ updateTrace M s → e.2.2 ≤ s.lambda_) ∧
      s'.cost_ ≤ (s.N_ : ℚ) * s.lambda_) := by
  obtain ⟨hlen, _, hcost, hprev, _, hnew, hle⟩ := passTrace_spec M s.N_ 0 _ s' h
  have hc : s'.cost_ = scoreSum (updateTrace M s) := by
    rw [hcost]; show (0 : ℚ) + _ = _; rw [zero_add]; rfl
  refine ⟨hprev, hc, hlen, hnew, ?_⟩
  intro hcl
  refine ⟨hle hcl, ?_⟩
  rw [hc]
  have hb := List.sum_le_card_nsmul ((updateTrace M s).map fun e => e.2.2) s.lambda_
    (by
      intro x hx
      obtain ⟨e, he, rfl⟩ := List.mem_map.1 hx
      exact hle hcl e he)
  rw [List.length_map, nsmul_eq_mul] at hb
  have hl : (updateTrace M s).length = s.N_ := hlen
  rw [hl] at hb
  exact hb

theorem updateLabels_cost_witness :
    ({ sampleState with cost_ := 1 } : State).prevCost_ = sampleState.cost_ ∧
    ({ sampleState with cost_ := 1 } : State).cost_ =
      scoreSum (updateTrace Euclidean sampleState) ∧
    (updateTrace Euclidean sampleState).length = sampleState.N_ ∧
    (∀ e, e ∈ updateTrace Euclidean sampleState → e.2.1 = e.1 →
      e.2.2 = sampleState.lambda_) ∧
    ((∀ a b, Euclidean.closer a b = true ↔ a < b) →
      (∀ e, e ∈ updateTrace Euclidean sampleState → e.2.2 ≤ sampleState.lambda_) ∧
      ({ sampleState with cost_ := 1 } : State).cost_ ≤
        (sampleState.N_ : ℚ) * sampleState.lambda_) :=
  updateLabels_cost Euclidean sampleState { sampleState with cost_ := 1 }
    (by
      have h1 : indOfClosestCluster Euclidean
          { sampleState with prevCost_ := sampleState.cost_, cost_ := 0 } 0 = some (1, 1) := by
        norm_num [sampleState, indOfClosestCluster, forLoop, closestBody, Euclidean, sqDist,
          dormantSim]
      simp only [updateLabels, forLoop, labelPoint, h1, Option.some_bind]
      simp [sampleState, joinCluster, relabel, UNASSIGNED])

/-- C18: `updateLabels` and `updateCenters` leave the age vector, the weight
vector (contents and lengths), `Kprev` and `prevCentroids` unchanged; so a
cluster that `updateLabels` spawns (an index from the old `K` on, when no
entry lay beyond the old `K`) has no weight and no age afterwards; and
`updateCenters` also leaves `K` and the labels unchanged. -/
theorem temporal_state_frame (M : Metric) (s : State) :
    (∀ s', updateLabels M s = some s' →
      s'.ts_ = s.ts_ ∧ s'.ws_ = s.ws_ ∧ s'.Kprev_ = s.Kprev_ ∧ s'.psPrev_ = s.psPrev_ ∧
      (s.ws_.length ≤ s.K_ → s.ts_.length ≤ s.K_ →
        ∀ k, s.K_ ≤ k → s'.ws_[k]? = none ∧ s'.ts_[k]? = none)) ∧
    (∀ s', updateCenters M s = some s' →
      s'.ts_ = s.ts_ ∧ s'.ws_ = s.ws_ ∧ s'.Kprev_ = s.Kprev_ ∧ s'.psPrev_ = s.psPrev_ ∧
      s'.K_ = s.K_ ∧ s'.z_ = s.z_) := by
  refine ⟨?_, ?_⟩
  · intro s' h
    have hf := updateLabels_frame M s s' h
    have hts : s'.ts_ = s.ts_ := by have := congrArg State.ts_ hf; exact this
    have hws : s'.ws_ = s.ws_ := by have := congrArg State.ws_ hf; exact this
    refine ⟨hts, hws, ?_, ?_, ?_⟩
    · have := congrArg State.Kprev_ hf; exact this
    · have := congrArg State.psPrev_ hf; exact this
    · intro hw ht k hk
      rw [hts, hws]
      exact ⟨List.getElem?_eq_none (by omega), List.getElem?_eq_none (by omega)⟩
  · intro s' h
    have hf := updateCenters_frame M s s' h
    refine ⟨?_, ?_, ?_, ?_, ?_, ?_⟩
    · have := congrArg State.ts_ hf; exact this
    · have := congrArg State.ws_ hf; exact this
    · have := congrArg State.Kprev_ hf; exact this
    · have := congrArg State.psPrev_ hf; exact this
    · have := congrArg State.K_ hf; exact this
    · have := congrArg State.z_ hf; exact this

/-! ## The two-batch scenario -/

/-- C14: with `D = 2`, the squared-Euclidean metric and `lambda = 1/2`, for
every `Q` and `tau` (in particular `Q >= 0`, `tau >= 0`): a fresh model on the
batch `{(0,0)}` has, after `updateLabels`, `updateCenters`, `updateState`,
`K = 1`, centroid 0 at `(0,0)`, weight 1 and age 1; after `nextTimeStep` with
the batch `{(10,10)}` and again `updateLabels`, `updateCenters`, `updateState`
it has `K = 2`, centroid 0 still at `(0,0)`, count 0, age 2 and weight 1 for
cluster 0, and centroid `(10,10)`, weight 1 and age 1 for cluster 1. -/
theorem two_batch_scenario (Q tau cost0 : ℚ) :
    (passAndCommit Euclidean (construct oneBatch (1 / 2) Q tau cost0)).map
        (fun s => (s.K_, s.ps_.cols, s.ws_, s.ts_)) = some (1, [[0, 0]], [1], [1]) ∧
    ((passAndCommit Euclidean (construct oneBatch (1 / 2) Q tau cost0)).bind
        fun s => advanceAndCommit Euclidean s farBatch).map
        (fun s => (s.K_, s.ps_.cols, s.Ns_, s.ts_, s.ws_)) =
      some (2, [[0, 0], [10, 10]], [0, 1], [2, 1], [1, 1]) := by
  constructor
  all_goals
    simp only [construct, oneBatch, farBatch, List.length_cons, List.length_nil, List.replicate,
      zero_add]
    simp only [passAndCommit, updateLabels]
    repeat (first
      | rw [Option.some_bind]
      | simp only [forLoop, labelPoint, indOfClosestCluster, closestBody, spawnCluster,
          joinCluster, relabel, setAt, conservativeResize, UNASSIGNED, updateCenters,
          centerBody, Euclidean, meanCenter, members, sqDist, updateState, stateBody,
          advanceAndCommit, nextTimeStep, passAndCommit, updateLabels,
          Vec.add, Vec.sdiv, Vec.smul, dormantSim, gammaOf, fusePoint, fuseMean,
          if_true, if_false, List.length_nil, List.length_cons,
          List.getElem?_cons_zero, List.getElem?_cons_succ, List.getElem?_nil,
          List.take_nil, List.nil_append, List.cons_append, List.replicate, List.set,
          List.length_append, List.length_replicate, List.length_set, ne_eq,
          not_true_eq_false, not_false_eq_true, List.zip_cons_cons, List.zip_nil_right,
          List.zip_nil_left, List.filter_cons, List.filter_nil, List.map_cons, List.map_nil,
          List.foldl_cons, List.foldl_nil, List.zipWith_cons_cons, List.zipWith_nil_left,
          List.zipWith_nil_right, List.sum_cons, List.sum_nil, decide_eq_true_eq,
          Option.map_some', and_true, true_and, and_false, false_and, decide_True,
          decide_False, Nat.cast_ofNat, Int.cast_ofNat, Nat.cast_zero, Nat.cast_one,
          Int.cast_zero, Int.cast_one, Nat.cast_succ, List.take_succ_cons, List.take_zero]
      | norm_num1)

/-! ## Reactivation more than once in a pass -/

/-- C15 (failing run): a fresh model with `lambda = 1/2`, `Q = 0`, `tau = 1`
clusters the batch `{(0,0)}` and commits; the next batch is
`{(10,10), (1,0), (1,0)}` (state `revisitStart`).  In the first pass the far
point spawns cluster 1 and releases the seeded label 0, which leaves cluster 0
with count 0; the second point reactivates cluster 0 (centroid `(2/3, 0)`) and
releases its seeded label 0 again, so after two points cluster 0 still has
count 0; the third point finds it dormant and the fusion is applied a second
time: the pass ends with centroid `(8/9, 0)` and count 0 for cluster 0. -/
theorem fusion_twice_in_one_pass :
    ((passAndCommit Euclidean (construct oneBatch (1 / 2) 0 1 0)).bind
        fun s => swapThen s revisitBatch some) = some revisitStart ∧
    labelFirst Euclidean 1 revisitStart = some revisit1 ∧
    labelFirst Euclidean 2 revisitStart = some revisit2 ∧
    updateLabels Euclidean revisitStart = some revisit3 ∧
    (revisit1.Ns_[0]? = some 0 ∧ revisit1.ps_.cols[0]? = some [0, 0]) ∧
    (indOfClosestCluster Euclidean revisit1 1 = some (0, 1 / 3) ∧
      revisit2.Ns_[0]? = some 0 ∧ revisit2.z_[1]? = some 0 ∧
      revisit2.ps_.cols[0]? = some (fusePoint (gammaOf 1 1 1) [0, 0] [1, 0])) ∧
    (indOfClosestCluster Euclidean revisit2 2 = some (0, 1 / 27) ∧
      revisit3.Ns_[0]? = some 0 ∧ revisit3.z_[2]? = some 0 ∧
      revisit3.ps_.cols[0]? =
        some (fusePoint (gammaOf 1 1 1) (fusePoint (gammaOf 1 1 1) [0, 0] [1, 0]) [1, 0])) ∧
    fusePoint (gammaOf 1 1 1) [0, 0] [1, 0] = [2 / 3, 0] ∧
    fusePoint (gammaOf 1 1 1) (fusePoint (gammaOf 1 1 1) [0, 0] [1, 0]) [1, 0] = [8 / 9, 0] := by
  refine ⟨?_, ?_, ?_, ?_, ⟨?_, ?_⟩, ⟨?_, ?_, ?_, ?_⟩, ⟨?_, ?_, ?_, ?_⟩, ?_, ?_⟩
  all_goals with_unfolding_all rfl

/-! ## A cluster that loses its members before the commit -/

/-- C16 (failing run): a fresh model with `lambda = Q = tau = 1` clusters the
batch `{(0,0)}` and commits; the next batch is `{(0,0), (1,0), (0,0)}` (state
`tripleStart`).  The first pass spawns clusters 1 and 2 (state `tripleOnce`);
the second pass moves the only member of cluster 2 to cluster 0 and lowers the
cost from 2 to 0 (state `emptiedState`).  Cluster 2 now has count 0 but no
weight and no age (both arrays have length 1): the next `updateLabels` scans
clusters 0 and 1 and then reads `ts_[2]` and `ws_[2]`, which do not exist. -/
theorem weight_read_before_entry :
    ((passAndCommit Euclidean (construct oneBatch 1 1 1 0)).bind
        fun s => swapThen s tripleBatch some) = some tripleStart ∧
    assignUpdate Euclidean tripleStart = some tripleOnce ∧
    assignUpdate Euclidean tripleOnce = some emptiedState ∧
    emptiedState.cost_ < emptiedState.prevCost_ ∧
    (2 < emptiedState.K_ ∧ emptiedState.Ns_[2]? = some 0 ∧
      emptiedState.ws_.length = 1 ∧ emptiedState.ts_.length = 1) ∧
    forLoop (closestBody Euclidean emptiedState 0) 2 0 (emptiedState.K_, emptiedState.lambda_) =
      some (0, 0) ∧
    closestBody Euclidean emptiedState 0 (0, 0) 2 = none ∧
    indOfClosestCluster Euclidean emptiedState 0 = none ∧
    updateLabels Euclidean emptiedState = none := by
  refine ⟨?_, ?_, ?_, ?_, ⟨?_, ?_, ?_, ?_⟩, ?_, ?_, ?_, ?_⟩
  · with_unfolding_all rfl
  · with_unfolding_all rfl
  · with_unfolding_all rfl
  · norm_num [emptiedState]
  · norm_num [emptiedState]
  all_goals with_unfolding_all rfl

/-! ## Positivity of the committed weights -/

/-- C20 (counterexample): the state `emptiedState` has weight and age arrays of
equal length `1 <= K = 3`, stored weight `1 > 0`, stored age `1 >= 0`,
`tau = 1 >= 0` and counts `2, 1, 0 >= 0`, yet `updateState` gives cluster 2, which
has no entry and count 0, the weight 0: not every one of the `K` weights is
strictly positive after the commit. -/
theorem updateState_zero_weight_counterexample :
    emptiedState.ws_.length = emptiedState.ts_.length ∧
    emptiedState.ws_.length ≤ emptiedState.K_ ∧
    (∀ w ∈ emptiedState.ws_, 0 < w) ∧ (∀ a ∈ emptiedState.ts_, 0 ≤ a) ∧
    0 ≤ emptiedState.tau_ ∧ (∀ c ∈ emptiedState.Ns_, 0 ≤ c) ∧
    (updateState emptiedState).map (fun s => (s.ws_, s.ts_)) =
      some ([5 / 2, 1, 0], [1, 1, 1]) ∧
    ¬ (∀ s', updateState emptiedState = some s' →
        ∀ k, k < emptiedState.K_ → ∃ w, s'.ws_[k]? = some w ∧ 0 < w) := by
  have hrun : updateState emptiedState =
      some { emptiedState with
        ws_ := [5 / 2, 1, 0], ts_ := [1, 1, 1], Kprev_ := 3,
        psPrev_ := ⟨2, [[0, 0], [1, 0], [0, 0]]⟩ } := by
    with_unfolding_all rfl
  refine ⟨rfl, by decide, ?_, ?_, ?_, ?_, ?_, ?_⟩
  · intro w hw
    simp only [emptiedState, List.mem_singleton] at hw
    rw [hw]; exact one_pos
  · intro a ha
    simp only [emptiedState, List.mem_singleton] at ha
    rw [ha]; exact zero_le_one
  · show (0 : ℚ) ≤ 1
    exact zero_le_one
  · intro c hc
    simp only [emptiedState, List.mem_cons, List.mem_singleton, List.not_mem_nil, or_false] at hc
    rcases hc with h | h | h <;> rw [h] <;> decide
  · rw [hrun]; rfl
  · intro h
    obtain ⟨w, hw, hpos⟩ := h _ hrun 2 (by decide)
    have h0 : w = 0 := by
      have h2 : (some (0 : ℚ)) = some w := hw
      exact (Option.some.inj h2).symm
    rw [h0] at hpos
    exact lt_irrefl _ hpos

/-- C20 (amended): for every state in which the weight and age arrays have
equal length `L <= K` (and a counter exists for each of the `K` clusters),
every stored weight is `> 0`, every stored age is `>= 0`, `tau >= 0`, and every
cluster without a weight/age entry (`L <= k < K`) has count `> 0`,
`updateState` returns, and afterwards each of the `K` clusters has a weight
`> 0` (so `1/weight` is not a division by zero) and an age `>= 1`. -/
theorem updateState_weights_positive (s : State)
    (hlen : s.ws_.length = s.ts_.length) (hL : s.ws_.length ≤ s.K_)
    (hNs : s.K_ ≤ s.Ns_.length)
    (hw : ∀ w ∈ s.ws_, 0 < w) (ha : ∀ a ∈ s.ts_, 0 ≤ a) (htau : 0 ≤ s.tau_)
    (hnew : ∀ k c, s.ws_.length ≤ k → k < s.K_ → s.Ns_[k]? = some c → 0 < c) :
    ∃ s', updateState s = some s' ∧ s'.ws_.length = s.K_ ∧ s'.ts_.length = s.K_ ∧
      ∀ k, k < s.K_ → ∃ w a, s'.ws_[k]? = some w ∧ 0 < w ∧ w ≠ 0 ∧
        s'.ts_[k]? = some a ∧ 1 ≤ a := by
  obtain ⟨t, s', ⟨_, hwl, htl, hdone, _⟩, hrun, e⟩ := updateState_spec s hlen hNs
  refine ⟨s', hrun, ?_, ?_, ?_⟩
  · rw [e]; show t.ws_.length = _; rw [hwl]; omega
  · rw [e]; show t.ts_.length = _; rw [htl]; omega
  intro k hk
  obtain ⟨h1, h2⟩ := hdone k hk
  have h1' : s'.ws_[k]? = some (committedWeight s k) := by rw [e]; exact h1
  have h2' : s'.ts_[k]? = some (committedAge s k) := by rw [e]; exact h2
  have hwpos : 0 < committedWeight s k := by
    unfold committedWeight
    by_cases hkw : k < s.ws_.length
    · have hkt : k < s.ts_.length := by omega
      have hwk : 0 < s.ws_.getD k 0 := by
        rw [List.getD_eq_getElem _ _ hkw]
        exact hw _ (List.getElem_mem hkw)
      have hak : 0 ≤ s.ts_.getD k 0 := by
        rw [List.getD_eq_getElem _ _ hkt]
        exact ha _ (List.getElem_mem hkt)
      rw [if_pos hkw]
      by_cases hn : 0 < s.Ns_.getD k 0
      · rw [if_pos hn]
        have hden : 0 < 1 / s.ws_.getD k 0 + s.ts_.getD k 0 * s.tau_ :=
          add_pos_of_pos_of_nonneg (one_div_pos.2 hwk) (mul_nonneg hak htau)
        have hnq : (0 : ℚ) < (s.Ns_.getD k 0 : ℚ) := by exact_mod_cast hn
        exact add_pos (one_div_pos.2 hden) hnq
      · rw [if_neg hn]; exact hwk
    · rw [if_neg hkw]
      have hkN : k < s.Ns_.length := by omega
      have hc := hnew k (s.Ns_.getD k 0) (by omega) hk (getElem?_eq_some_getD _ _ 0 hkN)
      exact_mod_cast hc
  have hage : 1 ≤ committedAge s k := by
    unfold committedAge
    by_cases hkw : k < s.ws_.length
    · have hkt : k < s.ts_.length := by omega
      have hak : 0 ≤ s.ts_.getD k 0 := by
        rw [List.getD_eq_getElem _ _ hkt]
        exact ha _ (List.getElem_mem hkt)
      rw [if_pos hkw]
      by_cases hn : 0 < s.Ns_.getD k 0
      · rw [if_pos hn]
      · rw [if_neg hn]; linarith
    · rw [if_neg hkw]
  exact ⟨_, _, h1', hwpos, ne_of_gt hwpos, h2', hage⟩

theorem updateState_weights_positive_witness :
    ∃ s', updateState spawnedState = some s' ∧ s'.ws_.length = spawnedState.K_ ∧
      s'.ts_.length = spawnedState.K_ ∧
      ∀ k, k < spawnedState.K_ → ∃ w a, s'.ws_[k]? = some w ∧ 0 < w ∧ w ≠ 0 ∧
        s'.ts_[k]? = some a ∧ 1 ≤ a :=
  updateState_weights_positive spawnedState (by decide) (by decide) (by decide)
    (by simp [spawnedState, sampleState]) (by simp [spawnedState, sampleState])
    (by simp [spawnedState, sampleState])
    (by
      intro k c h1 h2 h3
      have hk : k = 1 := by
        have a1 : 1 ≤ k := h1
        have a2 : k < 2 := h2
        omega
      subst hk
      have h4 : (some (1 : Int)) = some c := h3
      rw [← Option.some.inj h4]
      decide)

/-! ## Lemmas on label counts -/

theorem count_set_of_getElem? (z : List Nat) (j zo v k : Nat) (h : z[j]? = some zo) :
    ((z.set j v).count k : Int) =
      (z.count k : Int) + (if v = k then 1 else 0) - (if zo = k then 1 else 0) := by
  induction z generalizing j with
  | nil => simp at h
  | cons a z ih =>
    cases j with
    | zero =>
      simp only [List.getElem?_cons_zero, Option.some.injEq] at h
      subst h
      simp only [List.set_cons_zero, List.count_cons, beq_iff_eq, Nat.cast_add]
      by_cases h1 : v = k <;> by_cases h2 : a = k <;> simp [h1, h2]
    | succ j =>
      simp only [List.getElem?_cons_succ] at h
      simp only [List.set_cons_succ, List.count_cons, Nat.cast_add, ih j h]
      ring

theorem sum_map_indicator_range (a K : Nat) :
    ((List.range K).map fun k => if a = k then (1 : Int) else 0).sum =
      if a < K then 1 else 0 := by
  induction K with
  | zero => simp
  | succ K ih =>
    rw [List.range_succ, List.map_append, List.sum_append, ih]
    by_cases h1 : a < K
    · have h2 : a ≠ K := by omega
      have h3 : a < K + 1 := by omega
      simp [h1, h2, h3]
    · by_cases h2 : a = K
      · simp [h2]
      · have h3 : ¬ a < K + 1 := by omega
        simp [h1, h2, h3]

theorem sum_map_count_range (z : List Nat) (K : Nat) (h : ∀ v ∈ z, v < K) :
    ((List.range K).map fun k => (z.count k : Int)).sum = (z.length : Int) := by
  induction z with
  | nil => simp
  | cons a z ih =>
    have ha : a < K := h a (List.mem_cons_self a z)
    have hz : ∀ v ∈ z, v < K := fun v hv => h v (List.mem_cons_of_mem a hv)
    have e : (fun k => (((a :: z).count k : Nat) : Int)) =
        fun k => (z.count k : Int) + (if a = k then (1 : Int) else 0) := by
      funext k
      by_cases hak : a = k <;> simp [List.count_cons, hak]
    rw [e, List.sum_map_add, ih hz, sum_map_indicator_range, if_pos ha]
    simp

theorem spawnCluster_counters (s s1 : State) (i : Nat) (h : spawnCluster s i s.K_ = some s1)
    (hlen : s.Ns_.length = s.K_) :
    s1.Ns_ = s.Ns_ ++ [1] ∧ s1.K_ = s.K_ + 1 ∧ s1.z_ = s.z_ ∧ s1.N_ = s.N_ := by
  unfold spawnCluster at h
  simp only [Option.bind_eq_some] at h
  obtain ⟨x, _, h⟩ := h
  by_cases hps : s.ps_.cols.length = s.K_
  · simp only [hps, if_true, setAt, conservativeResize_length, Nat.lt_succ_self,
      Option.some_bind, Option.some.injEq] at h
    have hres : conservativeResize s.Ns_ (s.K_ + 1) = s.Ns_ ++ [0] := by
      unfold conservativeResize
      rw [List.take_of_length_le (by omega), hlen]
      simp
    have hset : (s.Ns_ ++ [(0 : Int)]).set s.K_ 1 = s.Ns_ ++ [1] := by
      rw [← hlen]; simp
    rw [hres, hset] at h
    subst h
    exact ⟨rfl, rfl, rfl, rfl⟩
  · simp [hps] at h

theorem joinCluster_counters (s s1 : State) (i z : Nat) (h : joinCluster s i z = some s1) :
    ∃ m, s.Ns_[z]? = some m ∧ s1.Ns_ = s.Ns_.set z (m + 1) ∧ s1.K_ = s.K_ ∧
      s1.z_ = s.z_ ∧ s1.N_ = s.N_ := by
  unfold joinCluster at h
  simp only [Option.bind_eq_some] at h
  obtain ⟨n, hn, t, ht, m, hm, h⟩ := h
  have hframe : t.Ns_ = s.Ns_ ∧ t.K_ = s.K_ ∧ t.z_ = s.z_ ∧ t.N_ = s.N_ := by
    by_cases h0 : n = 0
    · simp only [h0, if_true, Option.bind_eq_some] at ht
      obtain ⟨w, _, a, _, c, _, x, _, ht⟩ := ht
      simp only [Option.some.injEq] at ht
      rw [← ht]; exact ⟨rfl, rfl, rfl, rfl⟩
    · simp only [h0, if_false, Option.some.injEq] at ht
      rw [← ht]; exact ⟨rfl, rfl, rfl, rfl⟩
  obtain ⟨hN, hK, hz, hNN⟩ := hframe
  simp only [Option.some.injEq] at h
  subst h
  rw [hN] at hm
  refine ⟨m, hm, ?_, hK, hz, hNN⟩
  show t.Ns_.set z (m + 1) = _
  rw [hN]

theorem relabel_counters (s s1 : State) (i z zo : Nat) (h : relabel s i z = some s1)
    (hzo : s.z_[i]? = some zo) :
    s1.K_ = s.K_ ∧ s1.N_ = s.N_ ∧ s1.z_ = s.z_.set i z ∧
      ((zo = UNASSIGNED ∧ s1.Ns_ = s.Ns_) ∨
        (zo ≠ UNASSIGNED ∧ ∃ m, s.Ns_[zo]? = some m ∧ s1.Ns_ = s.Ns_.set zo (m - 1))) := by
  unfold relabel at h
  rw [hzo] at h
  simp only [Option.some_bind, Option.bind_eq_some] at h
  obtain ⟨t, ht, h⟩ := h
  simp only [Option.some.injEq] at h
  subst h
  by_cases hun : zo = UNASSIGNED
  · simp only [hun, ne_eq, not_true_eq_false, if_false, Option.some.injEq] at ht
    subst ht
    exact ⟨rfl, rfl, rfl, Or.inl ⟨hun, rfl⟩⟩
  · simp only [ne_eq, hun, not_false_eq_true, if_true, Option.bind_eq_some,
      Option.some.injEq] at ht
    obtain ⟨m, hm, ht⟩ := ht
    subst ht
    exact ⟨rfl, rfl, rfl, Or.inr ⟨hun, m, hm, rfl⟩⟩

theorem labelPoint_counters (M : Metric) (t t' : State) (j zo : Nat)
    (h : labelPoint M t j = some t') (hl : t.Ns_.length = t.K_)
    (hzo : t.z_[j]? = some zo) :
    ∃ r, indOfClosestCluster M t j = some r ∧ r.1 ≤ t.K_ ∧
      t'.K_ = t.K_ + (if r.1 = t.K_ then 1 else 0) ∧ t'.z_ = t.z_.set j r.1 ∧
      t'.N_ = t.N_ ∧ t'.Ns_.length = t'.K_ ∧
      ∀ k, k < t'.K_ → t'.Ns_[k]? =
        some ((if k < t.K_ then t.Ns_.getD k 0 else 0) + (if r.1 = k then 1 else 0) -
          (if zo ≠ UNASSIGNED ∧ zo = k then 1 else 0)) := by
  unfold labelPoint at h
  simp only [Option.bind_eq_some] at h
  obtain ⟨r, hr, s1, h1, h2⟩ := h
  have hrK := (indOfClosestCluster_result M t j r hr).1
  -- the counters after the spawn or the increment
  have mid : s1.K_ = t.K_ + (if r.1 = t.K_ then 1 else 0) ∧ s1.z_ = t.z_ ∧ s1.N_ = t.N_ ∧
      s1.Ns_.length = s1.K_ ∧
      ∀ k, k < s1.K_ → s1.Ns_[k]? =
        some ((if k < t.K_ then t.Ns_.getD k 0 else 0) + (if r.1 = k then 1 else 0)) := by
    by_cases hK : r.1 = t.K_
    · simp only [hK, if_true] at h1
      obtain ⟨a, b, c, d⟩ := spawnCluster_counters _ s1 j h1 hl
      have a' : s1.Ns_ = t.Ns_ ++ [1] := a
      have b' : s1.K_ = t.K_ + 1 := b
      refine ⟨by rw [b', if_pos hK], c, d, by rw [a', b']; simp [hl], ?_⟩
      intro k hk
      rw [a', hK]
      by_cases hkK : k < t.K_
      · rw [List.getElem?_append_left (by omega), if_pos hkK,
          if_neg (by omega : ¬ t.K_ = k), add_zero]
        exact getElem?_eq_some_getD _ _ 0 (by omega)
      · have hk2 : k = t.K_ := by omega
        subst hk2
        rw [List.getElem?_append_right (by omega), hl, if_neg hkK, if_pos rfl]
        simp
    · simp only [hK, if_false] at h1
      obtain ⟨m, hm, a, b, c, d⟩ := joinCluster_counters _ s1 j r.1 h1
      have hm' : t.Ns_[r.1]? = some m := hm
      have a' : s1.Ns_ = t.Ns_.set r.1 (m + 1) := a
      have b' : s1.K_ = t.K_ := b
      refine ⟨by rw [b', if_neg hK]; rfl, c, d, by rw [a', b']; simp [hl], ?_⟩
      intro k hk
      rw [b'] at hk
      rw [a', if_pos hk]
      by_cases hrk : r.1 = k
      · subst hrk
        rw [if_pos rfl, List.getElem?_set_self (by omega), getD_of_getElem? _ _ 0 _ hm']
      · rw [if_neg hrk, List.getElem?_set_ne hrk, add_zero]
        exact getElem?_eq_some_getD _ _ 0 (by omega)
  obtain ⟨mK, mz, mN, ml, mc⟩ := mid
  obtain ⟨rK, rN, rz, rNs⟩ := relabel_counters s1 t' j r.1 zo h2 (by rw [mz]; exact hzo)
  refine ⟨r, hr, hrK, by rw [rK, mK], by rw [rz, mz], by rw [rN, mN], ?_, ?_⟩
  · rcases rNs with ⟨_, e⟩ | ⟨_, m, _, e⟩
    · rw [e, rK]; exact ml
    · rw [e, rK, List.length_set]; exact ml
  · intro k hk
    rw [rK] at hk
    rcases rNs with ⟨hun, e⟩ | ⟨hun, m, hm, e⟩
    · have e3 : (if zo ≠ UNASSIGNED ∧ zo = k then (1 : Int) else 0) = 0 :=
        if_neg (fun hh => hh.1 hun)
      rw [e, mc k hk, e3, sub_zero]
    · rw [e]
      by_cases hzk : zo = k
      · subst hzk
        have e3 : (if zo ≠ UNASSIGNED ∧ zo = zo then (1 : Int) else 0) = 1 :=
          if_pos ⟨hun, rfl⟩
        have hmc := mc zo hk
        rw [hm] at hmc
        rw [List.getElem?_set_self (by rw [ml]; exact hk), e3, Option.some.inj hmc]
      · have e3 : (if zo ≠ UNASSIGNED ∧ zo = k then (1 : Int) else 0) = 0 :=
          if_neg (fun hh => hzk hh.2)
        rw [List.getElem?_set_ne hzk, mc k hk, e3, sub_zero]

theorem count_eq_zero_of_labels (z : List Nat) (K : Nat) (hK : K < UNASSIGNED)
    (h : ∀ (i v : Nat), z[i]? = some v → v = UNASSIGNED ∨ v < K) : z.count K = 0 := by
  rw [List.count_eq_zero]
  intro hmem
  obtain ⟨i, hi⟩ := List.mem_iff_getElem?.1 hmem
  rcases h i K hi with e | e
  · omega
  · omega

theorem labelPoint_consistent (M : Metric) (t t' : State) (j : Nat) (hc : Consistent t)
    (hK : t.K_ < UNASSIGNED) (h : labelPoint M t j = some t') :
    Consistent t' ∧ t'.N_ = t.N_ ∧ t.K_ ≤ t'.K_ ∧ t'.K_ ≤ t.K_ + 1 ∧
      ∃ v, t'.z_ = t.z_.set j v ∧ v < t'.K_ ∧ (t.K_ < t'.K_ → v = t.K_) := by
  obtain ⟨zo, hzo⟩ := labelPoint_reads_label M t t' j h
  obtain ⟨r, _, hrK, eK, ez, eN, el, ec⟩ := labelPoint_counters M t t' j zo h hc.Ns_len hzo
  have hKle : t.K_ ≤ t'.K_ := by rw [eK]; omega
  have hKle1 : t'.K_ ≤ t.K_ + 1 := by
    rw [eK]; by_cases hh : r.1 = t.K_
    · rw [if_pos hh]
    · rw [if_neg hh]; omega
  have hrlt : r.1 < t'.K_ := by
    rw [eK]; by_cases hh : r.1 = t.K_
    · rw [if_pos hh]; omega
    · rw [if_neg hh]; omega
  have hj : j < t.z_.length := (List.getElem?_eq_some_iff.1 hzo).1
  refine ⟨⟨?_, el, ?_, ?_⟩, eN, hKle, hKle1, r.1, ez, hrlt, ?_⟩
  · rw [ez, eN, List.length_set]; exact hc.z_len
  · intro i v hv
    rw [ez] at hv
    by_cases hij : j = i
    · subst hij
      rw [List.getElem?_set_self hj] at hv
      rw [← Option.some.inj hv]
      exact Or.inr hrlt
    · rw [List.getElem?_set_ne hij] at hv
      rcases hc.labels i v hv with e | e
      · exact Or.inl e
      · exact Or.inr (by omega)
  · intro k hk
    have hkU : k ≠ UNASSIGNED := by omega
    have e1 : (if zo ≠ UNASSIGNED ∧ zo = k then (1 : Int) else 0) =
        (if zo = k then 1 else 0) := by
      by_cases hzk : zo = k
      · rw [if_pos ⟨by rw [hzk]; exact hkU, hzk⟩, if_pos hzk]
      · rw [if_neg (fun hh => hzk hh.2), if_neg hzk]
    have e2 : (if k < t.K_ then t.Ns_.getD k 0 else 0) = (t.z_.count k : Int) := by
      by_cases hkK : k < t.K_
      · rw [if_pos hkK]
        exact getD_of_getElem? _ _ 0 _ (hc.counts k hkK)
      · have hk2 : k = t.K_ := by omega
        rw [if_neg hkK, hk2, count_eq_zero_of_labels t.z_ t.K_ hK hc.labels]
        rfl
    rw [ec k hk, ez, count_set_of_getElem? t.z_ j zo r.1 k hzo, e1, e2]
  · intro hlt
    by_cases hh : r.1 = t.K_
    · exact hh
    · rw [eK, if_neg hh] at hlt; omega

theorem consistent_counts_nonneg (t : State) (hc : Consistent t) : ∀ c ∈ t.Ns_, 0 ≤ c := by
  intro c hmem
  obtain ⟨k, hk, e⟩ := List.mem_iff_getElem.1 hmem
  have h1 := hc.counts k (by rw [← hc.Ns_len]; exact hk)
  rw [List.getElem?_eq_getElem hk, e] at h1
  rw [Option.some.inj h1]
  exact Int.ofNat_nonneg _

theorem labelFirst_consistent (M : Metric) (s t : State) (n : Nat) (hc : Consistent s)
    (hr : s.K_ + n ≤ UNASSIGNED) (h : labelFirst M n s = some t) :
    Consistent t ∧ t.N_ = s.N_ ∧ s.K_ ≤ t.K_ ∧ t.K_ ≤ s.K_ + n ∧
      ∀ (i v : Nat), i < n → t.z_[i]? = some v → v < t.K_ := by
  have key := forLoop_inv_of_some (labelPoint M)
    (fun j t => Consistent t ∧ t.N_ = s.N_ ∧ s.K_ ≤ t.K_ ∧ t.K_ ≤ s.K_ + j ∧
      ∀ (i v : Nat), i < j → t.z_[i]? = some v → v < t.K_)
    n 0 { s with prevCost_ := s.cost_, cost_ := 0 } t h
    ⟨⟨hc.z_len, hc.Ns_len, hc.labels, hc.counts⟩, rfl, le_refl _, le_refl _,
      fun i v hi _ => absurd hi (Nat.not_lt_zero i)⟩
    (by
      intro j u u' _ hj hbody ⟨huc, hN, hK1, hK2, hdone⟩
      obtain ⟨a, b, c, d, v, ez, hv, _⟩ :=
        labelPoint_consistent M u u' j huc (by omega) hbody
      refine ⟨a, by rw [b, hN], le_trans hK1 c, by omega, ?_⟩
      intro i w hi hw
      rw [ez] at hw
      by_cases hij : j = i
      · subst hij
        have hjl : j < u.z_.length := by
          have := (List.getElem?_eq_some_iff.1 hw).1
          rwa [List.length_set] at this
        rw [List.getElem?_set_self hjl] at hw
        rw [← Option.some.inj hw]; exact hv
      · rw [List.getElem?_set_ne hij] at hw
        exact lt_of_lt_of_le (hdone i w (by omega) hw) c)
  simpa using key

theorem closestBody_defined (M : Metric) (s : State) (i : Nat) (acc : Nat × ℚ) (k : Nat)
    (hr : Readable s) (hi : i < s.spx_.cols.length) (hk : k < s.K_) :
    ∃ acc', closestBody M s i acc k = some acc' := by
  have hps : k < s.ps_.cols.length := lt_of_lt_of_le hk hr.ps_len
  have hNs : k < s.Ns_.length := lt_of_lt_of_le hk hr.Ns_len
  unfold closestBody
  rw [getElem?_eq_some_getD _ k [] hps, getElem?_eq_some_getD _ i [] hi,
    getElem?_eq_some_getD _ k 0 hNs]
  simp only [Option.some_bind]
  by_cases hz : s.Ns_.getD k 0 = 0
  · obtain ⟨ht, hw⟩ := hr.dormant_entry k hk hz
    rw [getElem?_eq_some_getD _ k 0 ht, getElem?_eq_some_getD _ k 0 hw]
    simp only [hz, if_true, Option.some_bind]
    split_ifs
    · exact ⟨_, rfl⟩
    · exact ⟨_, rfl⟩
  · simp only [hz, if_false, Option.some_bind]
    split_ifs
    · exact ⟨_, rfl⟩
    · exact ⟨_, rfl⟩

theorem indOfClosestCluster_defined (M : Metric) (s : State) (i : Nat) (hr : Readable s)
    (hi : i < s.spx_.cols.length) : ∃ r, indOfClosestCluster M s i = some r := by
  have h := forLoop_inv (closestBody M s i) (fun _ _ => True) s.K_ 0 (s.K_, s.lambda_)
    trivial
    (fun j t _ hj _ => by
      obtain ⟨a, ha⟩ := closestBody_defined M s i t j hr hi (by omega)
      exact ⟨a, ha, trivial⟩)
  obtain ⟨r, hrun, _⟩ := h
  exact ⟨r, hrun⟩

theorem joinCluster_defined (s : State) (i z : Nat) (hz : z < s.Ns_.length)
    (hi : i < s.spx_.cols.length) (hps : z < s.ps_.cols.length)
    (hent : s.Ns_.getD z 0 = 0 → z < s.ws_.length ∧ z < s.ts_.length) :
    ∃ s1, joinCluster s i z = some s1 := by
  unfold joinCluster
  rw [getElem?_eq_some_getD _ z 0 hz]
  simp only [Option.some_bind]
  by_cases h0 : s.Ns_.getD z 0 = 0
  · obtain ⟨hw, ht⟩ := hent h0
    rw [if_pos h0, getElem?_eq_some_getD _ z 0 hw, getElem?_eq_some_getD _ z 0 ht,
      getElem?_eq_some_getD _ z [] hps, getElem?_eq_some_getD _ i [] hi]
    simp only [Option.some_bind]
    rw [getElem?_eq_some_getD _ z 0 hz]
    exact ⟨_, rfl⟩
  · rw [if_neg h0]
    simp only [Option.some_bind]
    rw [getElem?_eq_some_getD _ z 0 hz]
    exact ⟨_, rfl⟩

theorem joinCluster_cols_length (s s1 : State) (i z : Nat) (h : joinCluster s i z = some s1) :
    s1.ps_.cols.length = s.ps_.cols.length := by
  unfold joinCluster at h
  simp only [Option.bind_eq_some] at h
  obtain ⟨n, _, t, ht, m, _, h⟩ := h
  simp only [Option.some.injEq] at h
  subst h
  by_cases h0 : n = 0
  · simp only [h0, if_true, Option.bind_eq_some] at ht
    obtain ⟨w, _, a, _, c, _, x, _, ht⟩ := ht
    simp only [Option.some.injEq] at ht
    subst ht
    show (s.ps_.cols.set z _).length = _
    rw [List.length_set]
  · simp only [h0, if_false, Option.some.injEq] at ht
    subst ht
    rfl

theorem labelPoint_cols_length (M : Metric) (t t' : State) (j : Nat)
    (h : labelPoint M t j = some t') (hps : t.ps_.cols.length = t.K_) :
    t'.ps_.cols.length = t'.K_ := by
  unfold labelPoint at h
  simp only [Option.bind_eq_some] at h
  obtain ⟨r, hr, s1, h1, h2⟩ := h
  obtain ⟨Ns2, e2⟩ := relabel_shape s1 t' j r.1 h2
  have h3 : t'.ps_ = s1.ps_ := by rw [e2]
  have h4 : t'.K_ = s1.K_ := by rw [e2]
  rw [h3, h4]
  by_cases hK : r.1 = t.K_
  · simp only [hK, if_true] at h1
    obtain ⟨x, Ns1, e1⟩ := spawnCluster_shape _ s1 j _ h1
    rw [e1]
    show (t.ps_.cols ++ [x]).length = t.K_ + 1
    rw [List.length_append, hps]; rfl
  · simp only [hK, if_false] at h1
    have e1 : s1.ps_.cols.length = t.ps_.cols.length := by
      have := joinCluster_cols_length _ s1 j r.1 h1
      exact this
    obtain ⟨m, _, _, e3, _, _⟩ := joinCluster_counters _ s1 j r.1 h1
    have e4 : s1.K_ = t.K_ := e3
    rw [e1, e4]; exact hps

theorem labelPoint_defined (M : Metric) (t : State) (j : Nat) (hc : Consistent t)
    (hr : Readable t) (hps : t.ps_.cols.length = t.K_) (hj : j < t.N_)
    (hspx : t.N_ ≤ t.spx_.cols.length) : ∃ t', labelPoint M t j = some t' := by
  have hi : j < t.spx_.cols.length := lt_of_lt_of_le hj hspx
  obtain ⟨r, hrun⟩ := indOfClosestCluster_defined M t j hr hi
  have hrK := (indOfClosestCluster_result M t j r hrun).1
  have hjz : j < t.z_.length := by rw [hc.z_len]; exact hj
  have hzo := getElem?_eq_some_getD t.z_ j 0 hjz
  rw [labelPoint_of_winner M t j r hrun]
  -- the spawn or the increment is defined and keeps the labels
  have mid : ∃ s1, (if r.1 = t.K_ then spawnCluster { t with cost_ := t.cost_ + r.2 } j r.1
      else joinCluster { t with cost_ := t.cost_ + r.2 } j r.1) = some s1 ∧
      s1.z_ = t.z_ ∧ t.K_ ≤ s1.Ns_.length := by
    by_cases hK : r.1 = t.K_
    · rw [if_pos hK]
      obtain ⟨s1, h1, e1⟩ := spawnCluster_spec { t with cost_ := t.cost_ + r.2 } j r.1
        (t.spx_.cols.getD j []) hK (getElem?_eq_some_getD _ j [] hi) hps
      refine ⟨s1, h1, by rw [e1], ?_⟩
      rw [e1]
      show t.K_ ≤ ((conservativeResize t.Ns_ (t.K_ + 1)).set t.K_ 1).length
      rw [List.length_set, conservativeResize_length]; omega
    · rw [if_neg hK]
      have hlt : r.1 < t.K_ := by omega
      obtain ⟨s1, h1⟩ := joinCluster_defined { t with cost_ := t.cost_ + r.2 } j r.1
        (by show r.1 < t.Ns_.length; rw [hc.Ns_len]; exact hlt) hi
        (by show r.1 < t.ps_.cols.length; rw [hps]; exact hlt)
        (fun h0 => (hr.dormant_entry r.1 hlt h0).symm)
      obtain ⟨m, _, a, b, c, d⟩ := joinCluster_counters _ s1 j r.1 h1
      refine ⟨s1, h1, c, ?_⟩
      rw [a]
      show t.K_ ≤ (t.Ns_.set r.1 (m + 1)).length
      rw [List.length_set, hc.Ns_len]
  obtain ⟨s1, h1, ez, hlen⟩ := mid
  rw [h1, Option.some_bind]
  have hzo1 : s1.z_[j]? = some (t.z_.getD j 0) := by rw [ez]; exact hzo
  by_cases hun : t.z_.getD j 0 = UNASSIGNED
  · rw [hun] at hzo1
    obtain ⟨s2, h2, _⟩ := relabel_unassigned s1 j r.1 hzo1
    exact ⟨s2, h2⟩
  · have hlt : t.z_.getD j 0 < t.K_ := by
      rcases hc.labels j _ hzo with e | e
      · exact absurd e hun
      · exact e
    obtain ⟨s2, h2, _⟩ := relabel_assigned s1 j r.1 _ _ hzo1 hun
      (getElem?_eq_some_getD s1.Ns_ _ 0 (by omega))
    exact ⟨s2, h2⟩

theorem updateLabels_defined (M : Metric) (s : State) (hc : Consistent s) (hp : Passable s)
    (hr : s.K_ + s.N_ ≤ UNASSIGNED) : ∃ s', updateLabels M s = some s' := by
  have key := forLoop_inv (labelPoint M)
    (fun j t => Consistent t ∧ t.N_ = s.N_ ∧ t.K_ ≤ s.K_ + j ∧ t.ps_.cols.length = t.K_ ∧
      forgetAssignment t = forgetAssignment { s with prevCost_ := s.cost_ } ∧
      ∀ k, s.K_ ≤ k → k < t.K_ → ∃ i, i < j ∧ t.z_[i]? = some k)
    s.N_ 0 { s with prevCost_ := s.cost_, cost_ := 0 }
    ⟨⟨hc.z_len, hc.Ns_len, hc.labels, hc.counts⟩, rfl, le_refl _, hp.ps_len, rfl,
      fun k h1 h2 => absurd h2 (not_lt.2 h1)⟩
    (by
      intro j t _ hj ⟨htc, hN, hK, hps, hf, hsp⟩
      have hspx : t.spx_ = s.spx_ := by have := congrArg State.spx_ hf; exact this
      have hws : t.ws_ = s.ws_ := by have := congrArg State.ws_ hf; exact this
      have hts : t.ts_ = s.ts_ := by have := congrArg State.ts_ hf; exact this
      have hread : Readable t := by
        refine ⟨le_of_eq hps.symm, le_of_eq htc.Ns_len.symm, ?_⟩
        intro k hk h0
        by_cases hks : k < s.K_
        · rw [hws, hts]
          exact ⟨lt_of_lt_of_le hks hp.ts_len, lt_of_lt_of_le hks hp.ws_len⟩
        · obtain ⟨i, _, hi⟩ := hsp k (by omega) hk
          have hmem : k ∈ t.z_ := List.mem_iff_getElem?.2 ⟨i, hi⟩
          have hpos : 0 < t.z_.count k := List.count_pos_iff.2 hmem
          have hcnt := getD_of_getElem? _ _ 0 _ (htc.counts k hk)
          rw [hcnt] at h0
          have : (0 : Int) < (t.z_.count k : Int) := by exact_mod_cast hpos
          omega
      have hjN : j < t.N_ := by rw [hN]; omega
      obtain ⟨t', hrun⟩ := labelPoint_defined M t j htc hread hps hjN
        (by rw [hN, hspx]; exact hp.spx_len)
      obtain ⟨a, b, c, d, v, ez, hv, hnew⟩ :=
        labelPoint_consistent M t t' j htc (by omega) hrun
      have hjz : j < t.z_.length := by rw [htc.z_len]; exact hjN
      refine ⟨t', hrun, a, by rw [b, hN], by omega,
        labelPoint_cols_length M t t' j hrun hps,
        (labelPoint_frame M t t' j hrun).trans hf, ?_⟩
      intro k h1 h2
      by_cases hkt : k < t.K_
      · obtain ⟨i, hi, hzi⟩ := hsp k h1 hkt
        refine ⟨i, by omega, ?_⟩
        rw [ez, List.getElem?_set_ne (by omega)]
        exact hzi
      · have hlt : t.K_ < t'.K_ := by omega
        have hk : k = t.K_ := by omega
        refine ⟨j, by omega, ?_⟩
        rw [ez, List.getElem?_set_self hjz, hnew hlt, hk])
  obtain ⟨s', hrun, _⟩ := key
  exact ⟨s', hrun⟩

theorem consistent_counts_sum (t : State) (hc : Consistent t)
    (hl : ∀ v ∈ t.z_, v < t.K_) : t.Ns_.sum = (t.N_ : Int) := by
  have e : t.Ns_ = (List.range t.K_).map fun k => (t.z_.count k : Int) := by
    apply List.ext_getElem?
    intro k
    by_cases hk : k < t.K_
    · rw [hc.counts k hk, List.getElem?_map, List.getElem?_range hk]
      rfl
    · rw [List.getElem?_eq_none (by rw [hc.Ns_len]; omega),
        List.getElem?_eq_none (by rw [List.length_map, List.length_range]; omega)]
  rw [e, sum_map_count_range t.z_ t.K_ hl, hc.z_len]

theorem sampleState_consistent : Consistent sampleState where
  z_len := by decide
  Ns_len := by decide
  labels := by
    intro i v h
    cases i with
    | zero =>
      have h2 : some 1 = some v := h
      rw [← Option.some.inj h2]
      exact Or.inr (by decide)
    | succ i => simp [sampleState] at h
  counts := by
    intro k hk
    have hk2 : k < 2 := hk
    interval_cases k <;> rfl

theorem sampleState_passable : Passable sampleState where
  ps_len := by decide
  spx_len := by decide
  ws_len := by decide
  ts_len := by decide

theorem quadOnce_consistent : Consistent quadOnce where
  z_len := by decide
  Ns_len := by decide
  labels := by
    intro i v h
    have hi : i < 4 := (List.getElem?_eq_some_iff.1 h).1
    interval_cases i
    all_goals
      have h2 : some _ = some v := h
      rw [← Option.some.inj h2]
      exact Or.inr (by decide)
  counts := by
    intro k hk
    have hk2 : k < 3 := hk
    interval_cases k <;> rfl

/-! ## Count/label consistency -/

/-- C19 (failing run): the state `quadOnce`, which the driver reaches from a
fresh model, is consistent (every label is below `K = 3`, the counts `2, 1, 1`
are the numbers of points per label), has `K` centroid columns and `N` points,
and no cluster has count 0, so that weight/age entries exist for every cluster
with count 0; yet `updateLabels` does not complete on it: the third point moves
from cluster 2 to cluster 0, which leaves cluster 2 (spawned in this time step,
without weight and age) with count 0, and the scan for the fourth point reads
`ts_[2]` and `ws_[2]`, which do not exist. -/
theorem updateLabels_consistent_failing_run :
    ((passAndCommit Euclidean (construct oneBatch 1 1 1 0)).bind
        fun s => swapThen s quadBatch (assignUpdate Euclidean)) = some quadOnce ∧
    Consistent quadOnce ∧
    (∀ k, k < quadOnce.K_ → quadOnce.Ns_[k]? = some 0 →
      k < quadOnce.ws_.length ∧ k < quadOnce.ts_.length) ∧
    quadOnce.ps_.cols.length = quadOnce.K_ ∧ quadOnce.N_ ≤ quadOnce.spx_.cols.length ∧
    quadOnce.K_ + quadOnce.N_ ≤ UNASSIGNED ∧
    (labelFirst Euclidean 3 quadOnce).map (fun t => (t.z_, t.Ns_, t.ws_, t.ts_)) =
      some ([0, 1, 0, 0], [3, 1, 0], [1], [1]) ∧
    updateLabels Euclidean quadOnce = none := by
  refine ⟨?_, quadOnce_consistent, ?_, ?_, ?_, ?_, ?_, ?_⟩
  · with_unfolding_all rfl
  · intro k hk h0
    have hk2 : k < 3 := hk
    interval_cases k <;> simp [quadOnce] at h0
  · decide
  · decide
  · decide
  · with_unfolding_all rfl
  · with_unfolding_all rfl

/-- Count/label consistency on the passes that stay in bounds: for every state
in which the label vector has `N` entries
and the counter vector `K`, every label is `UNASSIGNED` or an index `< K`,
`count[k]` is the number of points labelled `k` for every `k < K`, and
`K + N` does not reach the sentinel: on every run of `updateLabels` that
completes (it does when the registry has `K` centroid columns, the batch has
`N` points and every cluster `k < K` has a weight and an age), afterwards every
label is an index `<` the new `K` and none is `UNASSIGNED`, `count[k]` is the
number of points labelled `k` for every `k <` the new `K`, after each point of
the pass every counter is `>= 0`, and the counts sum to `N`. -/
theorem updateLabels_consistent (M : Metric) (s : State) (hc : Consistent s)
    (hr : s.K_ + s.N_ ≤ UNASSIGNED) :
    (Passable s → ∃ s', updateLabels M s = some s') ∧
    ∀ s', updateLabels M s = some s' →
      s'.N_ = s.N_ ∧ s'.z_.length = s.N_ ∧ s.K_ ≤ s'.K_ ∧
      (∀ i, i < s.N_ → ∃ v, s'.z_[i]? = some v ∧ v < s'.K_ ∧ v ≠ UNASSIGNED) ∧
      s'.Ns_.length = s'.K_ ∧
      (∀ k, k < s'.K_ → s'.Ns_[k]? = some (s'.z_.count k : Int)) ∧
      (∀ j t, j ≤ s.N_ → labelFirst M j s = some t → ∀ c ∈ t.Ns_, 0 ≤ c) ∧
      s'.Ns_.sum = (s.N_ : Int) := by
  refine ⟨fun hp => updateLabels_defined M s hc hp hr, ?_⟩
  intro s' h
  obtain ⟨hc', hN, hK1, hK2, hdone⟩ := labelFirst_consistent M s s' s.N_ hc hr h
  have hzl : s'.z_.length = s.N_ := by rw [hc'.z_len, hN]
  refine ⟨hN, hzl, hK1, ?_, hc'.Ns_len, hc'.counts, ?_, ?_⟩
  · intro i hi
    have hil : i < s'.z_.length := by rw [hzl]; exact hi
    have hv := hdone i _ hi (getElem?_eq_some_getD s'.z_ i 0 hil)
    exact ⟨_, getElem?_eq_some_getD s'.z_ i 0 hil, hv, by omega⟩
  · intro j t hj ht
    exact consistent_counts_nonneg t (labelFirst_consistent M s t j hc (by omega) ht).1
  · rw [consistent_counts_sum s' hc', hN]
    intro v hv
    obtain ⟨i, hi⟩ := List.mem_iff_getElem?.1 hv
    have hil : i < s'.z_.length := (List.getElem?_eq_some_iff.1 hi).1
    exact hdone i v (by rw [← hzl]; exact hil) hi

theorem updateLabels_consistent_witness :
    (∃ s', updateLabels Euclidean sampleState = some s') ∧
    ∀ s', updateLabels Euclidean sampleState = some s' →
      s'.N_ = sampleState.N_ ∧ s'.z_.length = sampleState.N_ ∧ sampleState.K_ ≤ s'.K_ ∧
      (∀ i, i < sampleState.N_ → ∃ v, s'.z_[i]? = some v ∧ v < s'.K_ ∧ v ≠ UNASSIGNED) ∧
      s'.Ns_.length = s'.K_ ∧
      (∀ k, k < s'.K_ → s'.Ns_[k]? = some (s'.z_.count k : Int)) ∧
      (∀ j t, j ≤ sampleState.N_ → labelFirst Euclidean j sampleState = some t →
        ∀ c ∈ t.Ns_, 0 ≤ c) ∧
      s'.Ns_.sum = (sampleState.N_ : Int) :=
  ⟨(updateLabels_consistent Euclidean sampleState sampleState_consistent (by decide)).1
      sampleState_passable,
    (updateLabels_consistent Euclidean sampleState sampleState_consistent (by decide)).2⟩

end DDPMeans
